import Mathlib

/-!
Shallow embedding of the cell-link table library (cell_header.py, table.py,
helpers/date_set.py, helpers/page_master.py, helpers/topological_sort.py,
derived_columns.py) together with theorems settling the specification claims.

Conventions of the embedding:
* Python integers are `Int`; Python floor division `//` is `Int.fdiv`.
* Python `None` is the constructor `PyVal.pyNone`; the `NoneClass` sentinel
  (referenced by table.py but defined outside the provided sources) is the
  constructor `PyVal.noneClass`.
* Python dicts are association lists in insertion order (`dsetA` updates in
  place, appending new keys at the end, like CPython dicts); `defaultdict`
  reads that materialise a default entry are `dgetA`.
* Stateful methods become functions returning the updated state; a Python
  `raise` becomes an `Except` error carrying the state at the raise point.
-/

namespace CellLink

/-- Association-list lookup, mirroring Python `d[k]` / `d.get(k)`. -/
def lookupA {α β : Type} [DecidableEq α] : List (α × β) → α → Option β
  | [], _ => none
  | (a, b) :: t, k => if a = k then some b else lookupA t k

/-- Python dict write `d[k] = v`: update in place if the key exists
(keeping its position), otherwise append at the end, as CPython does. -/
def dsetA {α β : Type} [DecidableEq α] : List (α × β) → α → β → List (α × β)
  | [], k, v => [(k, v)]
  | (a, b) :: t, k, v => if a = k then (k, v) :: t else (a, b) :: dsetA t k v

/-- Python `defaultdict.__getitem__`: return the stored value, or materialise
the default value as a new entry (appended at the end) and return it. -/
def dgetA {α β : Type} [DecidableEq α] (l : List (α × β)) (k : α) (dflt : β) :
    β × List (α × β) :=
  match lookupA l k with
  | some v => (v, l)
  | none => (dflt, l ++ [(k, dflt)])

/-- Python `set.add` on a set represented as a duplicate-free list. -/
def saddA {α : Type} [DecidableEq α] (l : List α) (x : α) : List α :=
  if x ∈ l then l else l ++ [x]

/-- Python list slice `l[st:en]` with non-negative bounds. -/
def pySlice {α : Type} (l : List α) (st en : Nat) : List α :=
  (l.take en).drop st

/-- Python truthiness of an `Option Bool` (`None` is falsy). -/
def pyTruthy : Option Bool → Bool
  | none => false
  | some b => b

/-- Dates are plain integers of the Python code (format YYYYMMDD, used
purely arithmetically). -/
abbrev Date := Int

/-- Constant MAX_DATE from cell_header.py. -/
def MAX_DATE : Int := 99999999

/-- Constant CHECK_DATE_AVAILABILITY from cell_header.py (line 36): the
module-level default for availability checking. -/
def CHECK_DATE_AVAILABILITY : Bool := false

/-- Constant SNAPSHOT_KEY from cell_header.py. -/
def SNAPSHOT_KEY : String := "SNAPSHOT"

/-- Values stored in cells.  `pyNone` is Python `None`; `noneClass` is the
`NoneClass` missing-value sentinel stored by `Table.get_cell_value`
(`NoneClass` itself is not among the provided sources; modelled from the
spec as an explicit "missing" sentinel that is nonish, i.e. self-unequal);
`intV`/`strV` are the ordinary cell payloads exercised by the library. -/
inductive PyVal : Type where
  | pyNone : PyVal
  | noneClass : PyVal
  | intV : Int → PyVal
  | strV : String → PyVal
deriving DecidableEq

/-- Function `nonish` of cell_header.py: `None` is nonish, and so are
NaN-like self-unequal values.  On the value universe of this embedding that
means `pyNone` and the `NoneClass` sentinel (modelled from the spec:
"null, NaN, or self-unequal values are all treated as missing"); ints and
strings are not nonish. -/
def nonish : PyVal → Bool
  | .pyNone => true
  | .noneClass => true
  | .intV _ => false
  | .strV _ => false

/-- Function `default_or` of cell_header.py with its default
`default_value=0`, at the integer type the Waterfall column operates on
(its docstring: "Our type annotations insist that Waterfall only operate on
integer columns"): a nonish value contributes the default 0. -/
def default_or (x : PyVal) : Int :=
  match x with
  | .intV n => n
  | _ => 0

/-- Class `CellAddr` of cell_header.py: the immutable (date, column) pair. -/
structure CellAddr where
  date : Date
  col : String
deriving DecidableEq

/-- Python `str()` of a `CellAddr` (the attrs repr), used to build page
keys in page_master.py. -/
def cellAddrStr (a : CellAddr) : String :=
  "CellAddr(date=" ++ toString a.date ++ ", col=\x27" ++ a.col ++ "\x27)"

/-! ## DateSet (helpers/date_set.py) -/

/-- Class `DateSet` of date_set.py: an ordered list of dates plus a dict
from date to the set of cell keys seen at that date. -/
structure DateSet where
  dates : List Date
  dates_keys : List (Date × List String)
deriving DecidableEq

/-- Recursion of `DateSet.smallest_ind_gt_date` with its decreasing
measure `en - st` made explicit as structural fuel (each recursive call
shrinks `en - st` by at least one, so fuel `en - st` never runs out; the
fuel-exhausted arm only repeats the `st == en` base case). -/
def smallest_ind_gt_date_go (dates : List Date) (date : Date) :
    Nat → Nat → Nat → Nat
  | 0, st, _ => st
  | fuel + 1, st, en =>
    if st ≥ en then st
    else
      let m := (st + en) / 2
      if dates.getD m 0 > date then
        smallest_ind_gt_date_go dates date fuel st m
      else smallest_ind_gt_date_go dates date fuel (m + 1) en

/-- Method `DateSet.smallest_ind_gt_date` (binary search, with the
`st`/`en` recursion arguments explicit): index of the smallest date
greater than the passed date.  The guard `st ≥ en` coincides with the
source's `st == en` test on every reachable call (the source maintains
`st ≤ en`). -/
def smallest_ind_gt_date (dates : List Date) (date : Date) (st en : Nat) :
    Nat :=
  smallest_ind_gt_date_go dates date (en - st) st en

/-- Call `smallest_ind_gt_date` with the defaulted arguments
(`st=0`, `en=len(self.dates)`), as every external caller does. -/
def smallestIndGt (ds : DateSet) (date : Date) : Nat :=
  smallest_ind_gt_date ds.dates date 0 ds.dates.length

/-- Method `DateSet.slice`: all dates between `st_date` and `en_date`
inclusive (`none` meaning the bound is unset). -/
def DateSet.slice (ds : DateSet) (st_date en_date : Option Date) :
    List Date :=
  if ds.dates.length = 0 then []
  else
    let st_ind : Nat :=
      match st_date with
      | none => 0
      | some sd =>
        let i := smallestIndGt ds sd
        if 0 < i ∧ ds.dates.getD (i - 1) 0 = sd then i - 1 else i
    let en_ind : Nat :=
      match en_date with
      | none => ds.dates.length
      | some ed => smallestIndGt ds ed
    pySlice ds.dates st_ind en_ind

/-- Method `DateSet.push_date`: record the key under the date in
`dates_keys` and insert the date (in order) into `dates` if it is new.
Every Python path of the method returns `None`, mirrored here by the
`Option Bool` component being `none` on every path (the method's annotated
return type is `None`; it has no `return True`). -/
def DateSet.push_date (ds : DateSet) (date : Date) (cell_key : String) :
    DateSet × Option Bool :=
  let date_already_encountered := (lookupA ds.dates_keys date).isSome
  let p := dgetA ds.dates_keys date []
  let dk := dsetA p.2 date (saddA p.1 cell_key)
  if date_already_encountered then ({ ds with dates_keys := dk }, none)
  else if ds.dates = [] then ({ dates := [date], dates_keys := dk }, none)
  else
    let ind := smallestIndGt ds date
    ({ dates := ds.dates.take ind ++ [date] ++ ds.dates.drop ind,
       dates_keys := dk }, none)

/-! ## PageMaster (helpers/page_master.py) -/

/-- Constant CELL_FILES_DIR from cell_header.py. -/
def CELL_FILES_DIR : String := "/home/gaffney/psdata/cell_files"

/-- Errors a PageMaster operation can raise: `PermissionError` on writing a
readonly store, or any failure inside `_load_file` (an I/O error from
`open`, or a deserialization fault from `pickle.load`). -/
inductive PyErr : Type where
  | permission : PyErr
  | loadFail : PyErr
deriving DecidableEq

/-- State of one path of the backing byte store: no file, a successfully
deserializable page, or a file whose load raises (I/O error or malformed
pickle). -/
inductive StoreOutcome (V : Type) : Type where
  | absent : StoreOutcome V
  | okPage : List (String × V) → StoreOutcome V
  | failLoad : StoreOutcome V

/-- Pages are in-memory dicts from composite string keys to values. -/
abbrev Page (V : Type) := List (String × V)

/-- Class `PageMaster` of page_master.py, generic over the address type and
the stored value type.  `pfx` is the source's `prefix` attribute (renamed:
`prefix` is reserved in Lean); the methods `__str__` (of addresses) and
`_addr_to_page` that subclasses override are the function fields `addrStr`
and `addrToPage`; `storage` is the backing file system keyed by full path. -/
structure PageMaster (Addr V : Type) where
  pfx : String
  readonly : Bool
  cache : List (String × Page V)
  cache_size : Nat
  addrStr : Addr → String
  addrToPage : Addr → String
  storage : String → StoreOutcome V

namespace PageMaster

variable {Addr V : Type}

/-- Method `PageMaster._addr_key`: `"{str(addr)}: {key}"`. -/
def addr_key (s : PageMaster Addr V) (addr : Addr) (key : String) : String :=
  s.addrStr addr ++ ": " ++ key

/-- Full path `os.path.join(CELL_FILES_DIR, "{prefix}_{page_name}")` used by
`_load_new_page` and `_save_single_page`. -/
def fullPath (s : PageMaster Addr V) (page_name : String) : String :=
  CELL_FILES_DIR ++ "/" ++ s.pfx ++ "_" ++ page_name

/-- Method `PageMaster._load_file`: an empty dict if the path does not
exist, the pickled dict if it loads, an exception otherwise. -/
def load_file (s : PageMaster Addr V) (path : String) :
    Except Unit (Page V) :=
  match s.storage path with
  | .absent => .ok []
  | .okPage p => .ok p
  | .failLoad => .error ()

/-- Method `PageMaster._save_file`: raises `PermissionError` on a readonly
store, otherwise overwrites the path in backing storage. -/
def save_file (s : PageMaster Addr V) (page : Page V) (path : String) :
    Except PyErr (PageMaster Addr V) :=
  if s.readonly then .error .permission
  else .ok { s with storage := fun p =>
    if p = path then .okPage page else s.storage p }

/-- Method `PageMaster._save_single_page` with its defaulted argument
(`cache_index=None`): save the least-recently used page (the last cache
slot) to its file. -/
def save_single_page (s : PageMaster Addr V) :
    Except PyErr (PageMaster Addr V) :=
  if s.readonly then .error .permission
  else
    let c := s.cache.getD (s.cache.length - 1) ("", [])
    save_file s c.2 (fullPath s c.1)

/-- Method `PageMaster._load_new_page`: load the page from its file,
prepend it to the cache, and on overflow save then drop the
least-recently-used page.  An error carries the state at the raise point
(note the source assigns the extended cache before the possibly-raising
save). -/
def load_new_page (s : PageMaster Addr V) (page_name : String) :
    Except (PyErr × PageMaster Addr V) (Page V × PageMaster Addr V) :=
  match load_file s (fullPath s page_name) with
  | .error _ => .error (.loadFail, s)
  | .ok new_dict =>
    let s1 := { s with cache := (page_name, new_dict) :: s.cache }
    if s1.cache.length > s1.cache_size then
      match save_single_page s1 with
      | .error e => .error (e, s1)
      | .ok s2 =>
        .ok (new_dict, { s2 with cache := s2.cache.take s2.cache_size })
    else .ok (new_dict, s1)

/-- Method `PageMaster._get_page`: return the page from the cache (moving
it to the front) or load it fresh. -/
def get_page (s : PageMaster Addr V) (addr : Addr) :
    Except (PyErr × PageMaster Addr V) (Page V × PageMaster Addr V) :=
  let page_name := s.addrToPage addr
  match s.cache.findIdx? (fun c => c.1 = page_name) with
  | some ci =>
    let c := s.cache.getD ci ("", [])
    .ok (c.2, { s with cache := c :: s.cache.eraseIdx ci })
  | none => load_new_page s page_name

/-- Body of the `try:` block of `PageMaster.get_value` (resolve the page,
then `page.get(self._addr_key(addr, key), None)`). -/
def get_valueE (s : PageMaster Addr V) (addr : Addr) (key : String) :
    Except (PyErr × PageMaster Addr V) (Option V × PageMaster Addr V) :=
  match get_page s addr with
  | .error e => .error e
  | .ok (page, s') => .ok (lookupA page (s.addr_key addr key), s')

/-- Method `PageMaster.get_value`: the `try`/bare-`except` wrapper around
`get_valueE` — any failure is swallowed and reported as `None` (the state
keeps whatever mutations happened before the raise, as in Python). -/
def get_value (s : PageMaster Addr V) (addr : Addr) (key : String) :
    Option V × PageMaster Addr V :=
  match get_valueE s addr key with
  | .ok r => r
  | .error (_, s') => (none, s')

/-- Replacement of the front cache entry's page, when it is the named page:
this is how the in-place Python mutation `page[k] = value` lands in the
cache, since `_get_page` always leaves the returned page at the front of
the cache whenever it is resident at all (the only exception being a page
evicted immediately on load with `cache_size = 0`, whose mutation is lost,
which this function reproduces by changing nothing). -/
def mutateFront (s : PageMaster Addr V) (page_name : String)
    (page : Page V) : PageMaster Addr V :=
  match s.cache with
  | (n, _) :: t =>
    if n = page_name then { s with cache := (n, page) :: t } else s
  | [] => s

/-- Method `PageMaster.set_value`: raises on a readonly store, otherwise
writes the composite key into the resolved page. -/
def set_value (s : PageMaster Addr V) (addr : Addr) (key : String) (v : V) :
    Except (PyErr × PageMaster Addr V) (PageMaster Addr V) :=
  if s.readonly then .error (.permission, s)
  else
    match get_page s addr with
    | .error e => .error e
    | .ok (page, s') =>
      .ok (mutateFront s' (s.addrToPage addr)
        (dsetA page (s.addr_key addr key) v))

end PageMaster

/-- Class `CellMaster`: a `PageMaster` over `CellAddr` whose
`_addr_to_page` groups a month of one column onto one page
(`"{date // 100}-{col}"`). -/
def mkCellMaster (pfx : String) (cache_size : Nat := 80)
    (readonly : Bool := false)
    (storage : String → StoreOutcome PyVal := fun _ => .absent) :
    PageMaster CellAddr PyVal :=
  { pfx := pfx, readonly := readonly, cache := [], cache_size := cache_size,
    addrStr := cellAddrStr,
    addrToPage := fun a => toString (Int.fdiv a.date 100) ++ "-" ++ a.col,
    storage := storage }

/-- Snapshots of the Waterfall column: a dict from label to accumulated
total.  Labels are cell values (normally strings; a missing label is the
`NoneClass` sentinel). -/
abbrev Snapshot := List (PyVal × Int)

/-- Class `SnapshotMaster`: a `PageMaster` over plain dates, page name the
literal date, with the smaller cache bound 5. -/
def mkSnapshotMaster (column_name : String) (readonly : Bool := false)
    (storage : String → StoreOutcome Snapshot := fun _ => .absent) :
    PageMaster Date Snapshot :=
  { pfx := "SNAPSHOT-" ++ column_name, readonly := readonly, cache := [],
    cache_size := 5, addrStr := toString, addrToPage := toString,
    storage := storage }

/-- Method `SnapshotMaster.get_date_value`: `get_value` at the fixed
`SNAPSHOT_KEY`. -/
def SnapshotMaster.get_date_value (s : PageMaster Date Snapshot)
    (date : Date) : Option Snapshot × PageMaster Date Snapshot :=
  s.get_value date SNAPSHOT_KEY

/-- Method `SnapshotMaster.set_date_value`: resolves the page with
`_get_page` and writes `page[self._addr_key(date, SNAPSHOT_KEY)] = value`
directly (note: unlike `set_value`, no readonly check). -/
def SnapshotMaster.set_date_value (s : PageMaster Date Snapshot)
    (date : Date) (value : Snapshot) :
    Except (PyErr × PageMaster Date Snapshot) (PageMaster Date Snapshot) :=
  match s.get_page date with
  | .error e => .error e
  | .ok (page, s') =>
    .ok (s'.mutateFront (s.addrToPage date)
      (dsetA page (s.addr_key date SNAPSHOT_KEY) value))

/-! ## Columns (cell_header.py) and Table (table.py) -/

/-- Class `Column` of cell_header.py.  The subclass overrides
(`available_on_date` for `ProtectedColumn`, `key_init` for `ConstColumn`)
are function fields, as for `PageMaster`.  `key_init` here is a pure hook
returning the initial value for a key (`pyNone` when the hook produces
nothing, as the base class does); the `ConstColumn` hook that writes back
through the table is not needed by any claim and is not modelled. -/
structure Column where
  name : String
  column_dependencies : List String
  available_on_date : CellAddr → Date
  key_init : CellAddr → String → PyVal

/-- Method `Column.cell_dependencies`: the dependent columns paired with
the date of the passed address. -/
def Column.cell_dependencies (c : Column) (cell_addr : CellAddr) :
    List CellAddr :=
  c.column_dependencies.map (fun col => CellAddr.mk cell_addr.date col)

/-- Base-class `Column` construction (also `FlatColumn`, which adds
nothing): available on its own date, `key_init` does nothing. -/
def mkFlatColumn (name : String) (deps : List String := []) : Column :=
  { name := name, column_dependencies := deps,
    available_on_date := fun a => a.date,
    key_init := fun _ _ => .pyNone }

/-- Class `ProtectedColumn`: `available_on_date` returns
`cell_addr.date + 1`. -/
def mkProtectedColumn (name : String) (deps : List String := []) : Column :=
  { name := name, column_dependencies := deps,
    available_on_date := fun a => a.date + 1,
    key_init := fun _ _ => .pyNone }

/-- Errors raised by Table methods: the availability `KeyError`, the
missing-column `KeyError` (from `self.cm` lookups), the readonly
`PermissionError`, and errors propagated from the cell store. -/
inductive TableErr : Type where
  | notAvailable : TableErr
  | missingColumn : TableErr
  | permission : TableErr
  | pm : PyErr → TableErr
deriving DecidableEq

/-- Class `Table` of table.py.  `columns` is the ColumnManager's
name-keyed dict of registered columns in insertion order; the manager's
persistence and refresh-order bookkeeping is not needed by the table-level
claims.  `need_refresh` is the `defaultdict(set)` from column name to the
set of addresses needing a refresh. -/
structure Table where
  readonly : Bool
  cells : PageMaster CellAddr PyVal
  columns : List Column
  ds : DateSet
  need_refresh : List (String × List CellAddr)

namespace Table

/-- ColumnManager dict lookup by name (`self.cm.get_column`/`in self.cm`). -/
def getColumn (t : Table) (name : String) : Option Column :=
  t.columns.find? (fun c => c.name = name)

/-- Entry of the `need_refresh` defaultdict for a column (the empty set
when the column has no entry). -/
def needRefreshOf (t : Table) (name : String) : List CellAddr :=
  (lookupA t.need_refresh name).getD []

/-- Python `self.need_refresh[col].add(addr)`: a `defaultdict(set)` read
(materialising an empty set) followed by `set.add`. -/
def nrAdd (nr : List (String × List CellAddr)) (col : String)
    (addr : CellAddr) : List (String × List CellAddr) :=
  let p := dgetA nr col []
  dsetA p.2 col (saddA p.1 addr)

/-- Method `Table.all_keys_for_address`: `self.ds.dates_keys[addr.date]`,
a defaultdict read (which materialises an empty entry for an unseen date,
as in Python). -/
def all_keys_for_address (t : Table) (cell_addr : CellAddr) :
    List String × Table :=
  let p := dgetA t.ds.dates_keys cell_addr.date []
  (p.1, { t with ds := { t.ds with dates_keys := p.2 } })

/-- Branch `if result is None:` of `Table.get_cell_value`: run the owning
column's `key_init`, normalise `None` to the `NoneClass` sentinel ("to
prevent key_init() from running again"), store it, return it. -/
def keyInitPath (t : Table) (cell_addr : CellAddr) (key : String) :
    Except TableErr (PyVal × Table) :=
  match t.getColumn cell_addr.col with
  | none => .error .missingColumn
  | some col =>
    let r0 := col.key_init cell_addr key
    let result := if r0 = .pyNone then PyVal.noneClass else r0
    match t.cells.set_value cell_addr key result with
    | .error e => .error (.pm e.1)
    | .ok cells' => .ok (result, { t with cells := cells' })

/-- Method `Table.get_cell_value`.  Mirrors the source line by line:
the availability guard (which consults `self.cm.get_column` only when
`check_date_availability` is truthy, by Python short-circuiting), then
`self.cells.get_value`; on a Python-`None` result (absent key, swallowed
read failure, or a stored `None`) the column's `key_init` runs, its result
is normalised to the `NoneClass` sentinel when it is `None`, stored via
`self.cells.set_value`, and returned. -/
def get_cell_value (t : Table) (cell_addr : CellAddr) (key : String)
    (assert_available_on : Int := MAX_DATE)
    (check_date_availability : Bool := CHECK_DATE_AVAILABILITY) :
    Except TableErr (PyVal × Table) :=
  match
    (if check_date_availability then
      match t.getColumn cell_addr.col with
      | none => some TableErr.missingColumn
      | some col =>
        if assert_available_on < col.available_on_date cell_addr then
          some TableErr.notAvailable
        else none
    else none) with
  | some e => .error e
  | none =>
    let r := t.cells.get_value cell_addr key
    let t1 : Table := { t with cells := r.2 }
    match r.1 with
    | some v =>
      if v = .pyNone then t1.keyInitPath cell_addr key else .ok (v, t1)
    | none => t1.keyInitPath cell_addr key

/-- Condition under which a `get_cell_value` call would reach the
`key_init` branch: the cell store reports Python `None` (absent key,
swallowed failure, or a stored `None`). -/
def keyInitWouldFire (t : Table) (cell_addr : CellAddr) (key : String) :
    Prop :=
  (t.cells.get_value cell_addr key).1 = none ∨
    (t.cells.get_value cell_addr key).1 = some .pyNone

/-- Method `Table.set_cell_value`.  Mirrors the source: readonly guard,
missing-column guard, `self.ds.push_date` (whose returned Python `None` is
the falsy `new_key_encountered`, so the key-init/dirty-all branch it guards
never runs), the cell write, then dirty-marking of the written column's
declared dependents. -/
def set_cell_value (t : Table) (cell_addr : CellAddr) (key : String)
    (value : PyVal) : Except TableErr Table :=
  if t.readonly then .error .permission
  else if (t.getColumn cell_addr.col).isNone then .error .missingColumn
  else
    let p := t.ds.push_date cell_addr.date key
    let new_key_encountered := pyTruthy p.2
    let t1 : Table := { t with ds := p.1 }
    let t2 : Table :=
      if new_key_encountered then
        { t1 with
          need_refresh := t1.columns.foldl
            (fun nr c => nrAdd nr c.name (CellAddr.mk cell_addr.date c.name))
            t1.need_refresh }
      else t1
    match t2.cells.set_value cell_addr key value with
    | .error e => .error (.pm e.1)
    | .ok cells' =>
      let t3 : Table := { t2 with cells := cells' }
      match t3.getColumn cell_addr.col with
      | none => .error .missingColumn
      | some col =>
        .ok { t3 with
          need_refresh := (col.cell_dependencies cell_addr).foldl
            (fun nr dep => nrAdd nr dep.col dep) t3.need_refresh }

end Table

/-! ## Topological sort (helpers/topological_sort.py) -/

/-- Dependency graph as passed to `topological`: a dict from node name to
the collection of that node's dependents ("children"), in insertion order
(the Python values are sets, whose iteration order is arbitrary; the
embedding fixes one order, and the theorems do not depend on it). -/
abbrev Graph := List (String × List String)

/-- Keys of the graph dict: the nodes. -/
def gkeys (g : Graph) : List String := g.map (fun p => p.1)

/-- Python `graph[v]` (only ever evaluated on keys). -/
def childrenOf (g : Graph) (v : String) : List String :=
  (lookupA g v).getD []

/-- Python `dep in nodes`: whether a name is a key of the graph. -/
def isKey (g : Graph) (v : String) : Bool := (lookupA g v).isSome

/-- Enum `Color` of topological_sort.py. -/
inductive Color : Type where
  | white : Color
  | gray : Color
  | black : Color
deriving DecidableEq

/-- Per-run DFS state: the `nodes` dict of `Node` records (color, start,
finish) represented as functions, plus the shared `time` counter. -/
structure TopoState where
  color : String → Color
  startT : String → Option Nat
  finishT : String → Option Nat
  time : Nat

/-- Function `set_start`: bump `time`, record it as the node's start, color
the node gray. -/
def set_start (s : TopoState) (v : String) : TopoState :=
  { s with
    time := s.time + 1,
    startT := fun u => if u = v then some (s.time + 1) else s.startT u,
    color := fun u => if u = v then .gray else s.color u }

/-- Function `set_finish`: bump `time`, record it as the node's finish,
color the node black. -/
def set_finish (s : TopoState) (v : String) : TopoState :=
  { s with
    time := s.time + 1,
    finishT := fun u => if u = v then some (s.time + 1) else s.finishT u,
    color := fun u => if u = v then .black else s.color u }

/-- Outcomes of `topological` other than success: the `ValueError("Loop
found.")`, or exhaustion of the recursion fuel of this embedding (proved
unreachable for the fuel `topological` passes). -/
inductive TopoErr : Type where
  | cycle : TopoErr
  | fuelOut : TopoErr
deriving DecidableEq

/-- Function `dfs` of `topological`: raise on a gray node, else mark the
start, visit the children in order (the `for dep in graph[v]:` loop is a
left fold in the `Except` monad, whose error value propagates exactly as
the Python `raise` aborts the loop), then mark the finish.  `fuel` bounds
the recursion depth (each nesting level grays a white node, so
`number of keys + 1` suffices; see `dfsF_no_fuelOut`). -/
def dfsF (g : Graph) : Nat → TopoState → String → Except TopoErr TopoState
  | 0, _, _ => .error .fuelOut
  | fuel + 1, s, v =>
    if s.color v = .gray then .error .cycle
    else
      let r := (childrenOf g v).foldl
        (fun (acc : Except TopoErr TopoState) dep =>
          match acc with
          | .error e => .error e
          | .ok s1 =>
            if isKey g dep then
              if s1.color dep ≠ .black then dfsF g fuel s1 dep else .ok s1
            else .ok s1)
        (.ok (set_start s v))
      match r with
      | .error e => .error e
      | .ok s' => .ok (set_finish s' v)

/-- Loop `for v in graph.keys(): if white: dfs(v)` of `topological`. -/
def topLoop (g : Graph) (fuel : Nat) (vs : List String) (s : TopoState) :
    Except TopoErr TopoState :=
  match vs with
  | [] => .ok s
  | v :: rest =>
    if s.color v = .white then
      match dfsF g fuel s v with
      | .error e => .error e
      | .ok s' => topLoop g fuel rest s'
    else topLoop g fuel rest s

/-- Initial DFS state: `nodes = {v: Node() for v in graph.keys()}` (all
white, no times), `time = 0`. -/
def initTopoState : TopoState :=
  { color := fun _ => .white, startT := fun _ => none,
    finishT := fun _ => none, time := 0 }

/-- Function `topological` of topological_sort.py: run the DFS from every
unvisited key, then sort the keys by finish time in descending order.  The
fuel `(gkeys g).length + 1` never runs out (`topLoop_no_fuelOut`).  The
final `list.sort(key=lambda x: -x[1])` is mirrored by an insertion sort on
`≥` of finish times; finish times are pairwise distinct
(`topo_finishes_injective`), so every comparison sort produces this list. -/
def topological (g : Graph) : Except TopoErr (List String) :=
  match topLoop g ((gkeys g).length + 1) (gkeys g) initTopoState with
  | .error e => .error e
  | .ok s =>
    let key_finishes := (gkeys g).map (fun k => (k, (s.finishT k).getD 0))
    let sorted := key_finishes.insertionSort (fun a b => b.2 ≤ a.2)
    .ok (sorted.map (fun p => p.1))

/-! ## Waterfall column (derived_columns.py) -/

/-- Python `defaultdict(int)` update `d[k] += v` on a Snapshot: the read
materialises a zero entry, then the sum is stored. -/
def snapAdd (snap : Snapshot) (k : PyVal) (v : Int) : Snapshot :=
  let p := dgetA snap k 0
  dsetA p.2 k (p.1 + v)

/-- Class `Waterfall` of derived_columns.py: the run-time state and
parameters its `refresh` uses.  `input_maps` is the list of
`WaterfallMap(key_column, value_column)` pairs; `tail_length` is
`tail_length_years * 10000`; `dateToSnapshotDate` is the method
`_date_to_snapshot_date` as a function field (the test harness's
`MockWaterfall` overrides it, exactly as `PageMaster` subclasses override
`_addr_to_page`). -/
structure Waterfall where
  name : String
  input_maps : List (String × String)
  output_key : String
  tail_length : Int
  readonly : Bool
  snapshot_master : PageMaster Date Snapshot
  snapshot_dates : DateSet
  dateToSnapshotDate : Date → Date

/-- Method `Waterfall._date_to_snapshot_date`: truncate a date to the
start of its quarter (`year*10000 + (quarter*3 + 1)*100 + 1`, with Python
floor division and modulo). -/
def quarterSnapshotDate (date : Date) : Date :=
  let year_month := Int.fdiv date 100
  let year := Int.fdiv year_month 100
  let month := Int.fmod year_month 100
  let quarter := Int.fdiv (month - 1) 3
  year * 10000 + (quarter * 3 + 1) * 100 + 1

/-- Override `MockWaterfall._date_to_snapshot_date` of
tests/test_derived_columns.py: "Round down to 100000". -/
def mockSnapshotDate (date : Date) : Date :=
  Int.fdiv date 100000 * 100000

/-- Errors surfacing from `Waterfall.refresh`: errors of table reads and
writes, errors of the snapshot store, the `LookupError("Couldn't load
snapshot that is expected to exist.")`, and the `ValueError` Python `min`
raises on an empty dirty set (unreachable from `Table.refresh`, which
guards on a non-empty `need_refresh`). -/
inductive RErr : Type where
  | table : TableErr → RErr
  | pm : PyErr → RErr
  | missingSnapshot : RErr
  | emptyDirty : RErr
deriving DecidableEq

/-- Inner loop of `Waterfall._get_snapshot_increment` over
`self.input_maps` for one key: read the map's key column (skipping a
Python-`None` label), read the map's value column, and add
`default_or(value)` into the snapshot under the label. -/
def incrMaps (t : Table) (date : Date) (key : String) :
    List (String × String) → Snapshot → Except TableErr (Snapshot × Table)
  | [], snap => .ok (snap, t)
  | (kc, vc) :: rest, snap =>
    match t.get_cell_value (CellAddr.mk date kc) key with
    | .error e => .error e
    | .ok (key_in_result, t1) =>
      if key_in_result = .pyNone then incrMaps t1 date key rest snap
      else
        match t1.get_cell_value (CellAddr.mk date vc) key with
        | .error e => .error e
        | .ok (v, t2) =>
          incrMaps t2 date key rest (snapAdd snap key_in_result (default_or v))

/-- Outer loop of `Waterfall._get_snapshot_increment` over all keys at the
date. -/
def incrKeys (maps : List (String × String)) (t : Table) (date : Date) :
    List String → Snapshot → Except TableErr (Snapshot × Table)
  | [], snap => .ok (snap, t)
  | k :: rest, snap =>
    match incrMaps t date k maps snap with
    | .error e => .error e
    | .ok (snap', t1) => incrKeys maps t1 date rest snap'

/-- Method `Waterfall._get_snapshot_increment`: all of the date's data in
Snapshot form (a fresh `defaultdict(int)` filled from the input maps). -/
def Waterfall.get_snapshot_increment (w : Waterfall) (t : Table)
    (date : Date) : Except TableErr (Snapshot × Table) :=
  let p := t.all_keys_for_address (CellAddr.mk date w.name)
  incrKeys w.input_maps p.2 date p.1 []

/-- Method `Waterfall._save_snapshot`: record the date in
`snapshot_dates` and store a deep copy of the snapshot (the embedding has
value semantics, so the copy is implicit). -/
def Waterfall.save_snapshot (w : Waterfall) (date : Date)
    (snapshot : Snapshot) : Except PyErr Waterfall :=
  let p := w.snapshot_dates.push_date date SNAPSHOT_KEY
  match SnapshotMaster.set_date_value w.snapshot_master date snapshot with
  | .error e => .error e.1
  | .ok sm => .ok { w with snapshot_dates := p.1, snapshot_master := sm }

/-- Closure `_expire_less_than(d)` of `Waterfall.refresh`: while the
oldest window date is `< d`, subtract that date's snapshot increment from
the working snapshot and drop the date.  Returns the new working snapshot,
the remaining window dates, and the threaded table. -/
def Waterfall.expireLessThan (w : Waterfall) (t : Table) (d : Date) :
    List Date → Snapshot → Except TableErr (Snapshot × List Date × Table)
  | [], working => .ok (working, [], t)
  | w0 :: rest, working =>
    if w0 < d then
      match w.get_snapshot_increment t w0 with
      | .error e => .error e
      | .ok (inc, t1) =>
        let working' := inc.foldl (fun ws kv => snapAdd ws kv.1 (-kv.2)) working
        w.expireLessThan t1 d rest working'
    else .ok (working, w0 :: rest, t)

/-- Cell-writing loop of `Waterfall.refresh` (step "Update this column"):
for every key at the date, look up the output label and write the working
snapshot's total for that label (a `defaultdict(int)` read, which
materialises a zero entry) into this column's cell. -/
def Waterfall.writeCells (w : Waterfall) (t : Table) (next_cell_date : Date)
    (working : Snapshot) :
    List String → Except TableErr (Snapshot × Table)
  | [] => .ok (working, t)
  | k :: rest =>
    match t.get_cell_value (CellAddr.mk next_cell_date w.output_key) k with
    | .error e => .error e
    | .ok (key_in_snapshot, t1) =>
      let p := dgetA working key_in_snapshot 0
      match t1.set_cell_value (CellAddr.mk next_cell_date w.name) k
          (.intV p.1) with
      | .error e => .error e
      | .ok t2 => w.writeCells t2 next_cell_date p.2 rest

/-- Inner `while` of `Waterfall.refresh`: save off every snapshot whose
date is due (`<= cell_dates_to_update[0]`), expiring window contributions
older than `snapshot_date - tail_length` first. -/
def Waterfall.saveDue (w : Waterfall) (t : Table) (next_cell : Date)
    (snapDates : List Date) (window : List Date) (working : Snapshot) :
    Except RErr
      (Waterfall × Table × List Date × List Date × Snapshot) :=
  match snapDates with
  | [] => .ok (w, t, [], window, working)
  | s0 :: rest =>
    if s0 ≤ next_cell then
      match w.expireLessThan t (s0 - w.tail_length) window working with
      | .error e => .error (.table e)
      | .ok (working', window', t1) =>
        match w.save_snapshot s0 working' with
        | .error e => .error (.pm e)
        | .ok w1 => w1.saveDue t1 next_cell rest window' working'
    else .ok (w, t, s0 :: rest, window, working)

/-- Outer `while cell_dates_to_update:` of `Waterfall.refresh`: save due
snapshots, append the next date to the window, expire dates older than
`next_cell_date - tail_length`, write this column's cells for the date,
then add the date's increment into the working snapshot. -/
def Waterfall.walk (w : Waterfall) (t : Table) (snapDates : List Date)
    (cellDates : List Date) (window : List Date) (working : Snapshot) :
    Except RErr (Waterfall × Table) :=
  match cellDates with
  | [] => .ok (w, t)
  | next :: restCells =>
    match w.saveDue t next snapDates window working with
    | .error e => .error e
    | .ok (w1, t1, snapDates', window', working') =>
      let window2 := window' ++ [next]
      match w1.expireLessThan t1 (next - w1.tail_length) window2 working' with
      | .error e => .error (.table e)
      | .ok (working2, window3, t2) =>
        let keys := t2.all_keys_for_address (CellAddr.mk next w1.name)
        match w1.writeCells keys.2 next working2 keys.1 with
        | .error e => .error (.table e)
        | .ok (working3, t3) =>
          match w1.get_snapshot_increment t3 next with
          | .error e => .error (.table e)
          | .ok (inc, t4) =>
            let working4 :=
              inc.foldl (fun ws kv => snapAdd ws kv.1 kv.2) working3
            w1.walk t4 snapDates' restCells window3 working4

/-- Python `min(ca.date for ca in ...)`: the minimum date of a dirty set,
or `none` when the set is empty (where Python `min` raises `ValueError`). -/
def minDate : List CellAddr → Option Date
  | [] => none
  | ca :: rest =>
    match minDate rest with
    | none => some ca.date
    | some m => some (min ca.date m)

/-- Python `sorted(list(set(l)))`: the ascending list of the distinct
elements. -/
def sortedDedup (l : List Date) : List Date :=
  l.dedup.insertionSort (fun a b => a ≤ b)

/-- Setup phase of `Waterfall.refresh` (source lines 387-402): find the
latest recorded snapshot index via `smallest_ind_gt_date(min_date) - 1`;
if there is none, an empty accumulator positioned at
`_date_to_snapshot_date(min_date)`; otherwise load that snapshot,
raising the `LookupError` when the store has none.  Returns the starting
snapshot date, the starting accumulator, and the Waterfall (whose snapshot
store cache the load may have rearranged).  The source keeps a live
reference to the loaded page-resident dict; no claim depends on that
aliasing, and the embedding's value semantics copies it. -/
def Waterfall.refreshInit (w : Waterfall) (min_date : Date) :
    Except RErr (Date × Snapshot × Waterfall) :=
  let first_snapshot_ind : Int := (smallestIndGt w.snapshot_dates min_date : Int) - 1
  if first_snapshot_ind = -1 then
    .ok (w.dateToSnapshotDate min_date, [], w)
  else
    let first_snapshot_date := w.snapshot_dates.dates.getD
      first_snapshot_ind.toNat 0
    match SnapshotMaster.get_date_value w.snapshot_master
        first_snapshot_date with
    | (none, _) => .error .missingSnapshot
    | (some working, sm) =>
      .ok (first_snapshot_date, working,
        { w with snapshot_master := sm })

/-- Method `Waterfall.refresh`: no-op when readonly; otherwise compute
`min_date` over the column's dirty addresses, set up the starting
accumulator (`refreshInit`), build the initial window
`ds.slice(window_st, window_en - 1)`, the cell dates
`ds.slice(st_date=first_snapshot_date)` and the sorted deduplicated
snapshot dates to update, and walk forward. -/
def Waterfall.refresh (w : Waterfall) (t : Table) :
    Except RErr (Waterfall × Table) :=
  if w.readonly then .ok (w, t)
  else
    match minDate (t.needRefreshOf w.name) with
    | none => .error .emptyDirty
    | some min_date =>
      match w.refreshInit min_date with
      | .error e => .error e
      | .ok (first_snapshot_date, working, w1) =>
        let window_st := first_snapshot_date - w1.tail_length
        let window_en := first_snapshot_date
        let window_dates := t.ds.slice (some window_st) (some (window_en - 1))
        let cell_dates_to_update := t.ds.slice (some first_snapshot_date) none
        let snapshot_dates_to_update :=
          sortedDedup (cell_dates_to_update.map w1.dateToSnapshotDate)
        w1.walk t snapshot_dates_to_update cell_dates_to_update
          window_dates working

/-! ## Column registration (table.py `add_column`, constructor wiring of
cell_header.py `Column.__init__` and derived_columns.py
`Waterfall.__init__`) -/

/-- Method `Table.add_column`: readonly guard, `self.cm.add_column`
(a no-op when the name is already registered), then mark the new column
dirty at every date the table has seen (iterating `ds.dates_keys` in
insertion order). -/
def Table.add_column (t : Table) (column : Column) : Except TableErr Table :=
  if t.readonly then .error .permission
  else
    .ok { t with
      columns :=
        if (t.getColumn column.name).isSome then t.columns
        else t.columns ++ [column],
      need_refresh := t.ds.dates_keys.foldl
        (fun nr p => Table.nrAdd nr column.name (CellAddr.mk p.1 column.name))
        t.need_refresh }

/-- Constructor wiring of `Waterfall.__init__`: add the new column's name
to `_column_dependencies` of every required column (each looked up through
`cm.get_column`, which raises `KeyError` when absent), then register the
Waterfall with the table (`Column.__init__` calls `table.add_column`); as
a registered column it keeps the base-class `key_init` and
`available_on_date`, which `Waterfall` does not override, and starts with
no dependents of its own. -/
def Table.addWaterfallColumn (t : Table) (name : String)
    (required_columns : List String) : Except TableErr Table :=
  if required_columns.all (fun c => (t.getColumn c).isSome) then
    let t1 : Table := { t with columns := t.columns.map (fun c =>
      if c.name ∈ required_columns then
        { c with column_dependencies := saddA c.column_dependencies name }
      else c) }
    t1.add_column (mkFlatColumn name)
  else .error .missingColumn

/-! ## Specification-side notions used by the claim statements -/

/-- Edge relation of the dependency graph restricted to declared nodes:
`u` lists `v` among its dependents and `v` is itself a key of the graph. -/
def EdgeG (g : Graph) (u v : String) : Prop :=
  ∃ cs, lookupA g u = some cs ∧ v ∈ cs ∧ isKey g v

/-- Acyclicity of the restricted dependency graph: no nonempty edge path
from any node back to itself. -/
def AcyclicG (g : Graph) : Prop :=
  ∀ v, ¬ Relation.TransGen (EdgeG g) v v

/-- One `get_value`/`set_value` call against a `PageMaster`. -/
inductive PMOp (Addr V : Type) : Type where
  | getOp : Addr → String → PMOp Addr V
  | setOp : Addr → String → V → PMOp Addr V

/-- Address touched by an operation. -/
def PMOp.addr {Addr V : Type} : PMOp Addr V → Addr
  | .getOp a _ => a
  | .setOp a _ _ => a

/-- State after one operation (a raising `set_value` leaves the state at
the raise point, as the Python object would). -/
def pmStep {Addr V : Type} (s : PageMaster Addr V) :
    PMOp Addr V → PageMaster Addr V
  | .getOp a k => (s.get_value a k).2
  | .setOp a k v =>
    match s.set_value a k v with
    | .ok s' => s'
    | .error (_, s') => s'

/-- State after a sequence of operations. -/
def pmRun {Addr V : Type} (s : PageMaster Addr V)
    (ops : List (PMOp Addr V)) : PageMaster Addr V :=
  ops.foldl pmStep s

/-- Move-to-front step on a list of page names. -/
def mtfStep (l : List String) (p : String) : List String := p :: l.erase p

/-- Move-to-front list of an access sequence: the distinct page names
accessed, most recently used first. -/
def mtf (ps : List String) : List String := ps.foldl mtfStep []

/-- Index of the most recent use of a page name in an access sequence
(`none` when never used). -/
def lastUse (ps : List String) (p : String) : Option Nat :=
  match ps.reverse.findIdx? (fun q => q = p) with
  | none => none
  | some i => some (ps.length - 1 - i)

/-- Backing storage from which every load either succeeds or reports
absence — no I/O or deserialization faults. -/
def reliableStore {Addr V : Type} (s : PageMaster Addr V) : Prop :=
  ∀ p, s.storage p ≠ .failLoad

/-- Page names an operation sequence touches, in order, under the store's
page-resolution function. -/
def opPages {Addr V : Type} (s0 : PageMaster Addr V)
    (ops : List (PMOp Addr V)) : List String :=
  ops.map (fun op => s0.addrToPage op.addr)

/-- The relation "`x` was used more recently than `y`" over an access
history: every defined last-use index of `y` is below that of `x`. -/
def recencyLt (hist : List String) (x y : String) : Prop :=
  ∀ ix iy, lastUse hist x = some ix → lastUse hist y = some iy → iy < ix

/-- Cell store of the C6 witness: capacity 1, writable, empty backing
storage. -/
def c6Master : PageMaster CellAddr PyVal :=
  mkCellMaster "w" 1 false (fun _ => .absent)

/-- Operations of the C6 witness: touch the January page, then the
February page (which evicts January), for one column. -/
def c6Ops : List (PMOp CellAddr PyVal) :=
  [ .setOp (CellAddr.mk 20110101 "c") "k" (.intV 7),
    .getOp (CellAddr.mk 20110202 "c") "k" ]

/-! ## Concrete scenarios of the reference claims -/

/-- Fold of `Table.set_cell_value` over a list of writes. -/
def applyWrites (t : Table) :
    List (Date × String × String × PyVal) → Except TableErr Table
  | [] => .ok t
  | (d, c, k, v) :: rest =>
    match t.set_cell_value (CellAddr.mk d c) k v with
    | .error e => .error e
    | .ok t' => applyWrites t' rest

/-- Fresh `Table` (constructor of table.py with mocked-out backing files:
empty cell store, no columns, empty date set, empty dirty sets). -/
def emptyTable : Table :=
  { readonly := false, cells := mkCellMaster "test_prefix",
    columns := [], ds := { dates := [], dates_keys := [] },
    need_refresh := [] }

/-- Writes of the windowed-aggregation reference scenario (values 1, 20,
300, 4000, 50000 at dates 10000..50000 for key "X" in column Player1 /
metric Points1; date 60000 has the key but no metric value). -/
def c1Writes : List (Date × String × String × PyVal) :=
  [ (10000, "Player1", "row_1", .strV "X"),
    (10000, "Points1", "row_1", .intV 1),
    (20000, "Player1", "row_1", .strV "X"),
    (20000, "Points1", "row_1", .intV 20),
    (30000, "Player1", "row_1", .strV "X"),
    (30000, "Points1", "row_1", .intV 300),
    (40000, "Player1", "row_1", .strV "X"),
    (40000, "Points1", "row_1", .intV 4000),
    (50000, "Player1", "row_1", .strV "X"),
    (50000, "Points1", "row_1", .intV 50000),
    (60000, "Player1", "row_1", .strV "X") ]

/-- Table of the windowed-aggregation scenario: Player1 and Points1
registered, the writes applied, then the Waterfall registered (which also
marks it dirty at every date). -/
def c1Table : Except TableErr Table := do
  let t1 ← emptyTable.add_column (mkFlatColumn "Player1")
  let t2 ← t1.add_column (mkFlatColumn "Points1")
  let t3 ← applyWrites t2 c1Writes
  t3.addWaterfallColumn "player1_wf" ["Player1", "Points1"]

/-- Waterfall state of the scenario: one input map (Player1, Points1),
output key Player1, `tail_length_years=3`, fresh snapshot store. -/
def c1Waterfall : Waterfall :=
  { name := "player1_wf", input_maps := [("Player1", "Points1")],
    output_key := "Player1", tail_length := 3 * 10000, readonly := false,
    snapshot_master := mkSnapshotMaster "SNAPSHOT_test_prefix:player1_wf",
    snapshot_dates := { dates := [], dates_keys := [] },
    dateToSnapshotDate := quarterSnapshotDate }

/-- Refresh run of the windowed-aggregation scenario. -/
def c1Run : Except RErr (Waterfall × Table) :=
  match c1Table with
  | .error e => .error (.table e)
  | .ok t => c1Waterfall.refresh t

/-- Value a read of `(date, col)` at `key` returns on a table (`none` when
the read raises). -/
def readCell (t : Table) (d : Date) (c k : String) : Option PyVal :=
  match t.get_cell_value (CellAddr.mk d c) k with
  | .ok (v, _) => some v
  | .error _ => none

/-- Waterfall cell values the scenario run produces at the six dates. -/
def c1Values : Except RErr (List (Option PyVal)) :=
  match c1Run with
  | .error e => .error e
  | .ok (_, t) =>
    .ok ([10000, 20000, 30000, 40000, 50000, 60000].map
      (fun d => readCell t d "player1_wf" "row_1"))

/-- Writes of the snapshot-checkpoint reference scenario (values 1@50000,
20@150000, 300@180000, 4000@220000, 50000@250000, 600000@300000 for key
"X"). -/
def c5Writes : List (Date × String × String × PyVal) :=
  [ (50000, "Player1", "row_1", .strV "X"),
    (50000, "Points1", "row_1", .intV 1),
    (150000, "Player1", "row_1", .strV "X"),
    (150000, "Points1", "row_1", .intV 20),
    (180000, "Player1", "row_1", .strV "X"),
    (180000, "Points1", "row_1", .intV 300),
    (220000, "Player1", "row_1", .strV "X"),
    (220000, "Points1", "row_1", .intV 4000),
    (250000, "Player1", "row_1", .strV "X"),
    (250000, "Points1", "row_1", .intV 50000),
    (300000, "Player1", "row_1", .strV "X"),
    (300000, "Points1", "row_1", .intV 600000) ]

/-- Table of the snapshot-checkpoint scenario. -/
def c5Table : Except TableErr Table := do
  let t1 ← emptyTable.add_column (mkFlatColumn "Player1")
  let t2 ← t1.add_column (mkFlatColumn "Points1")
  let t3 ← applyWrites t2 c5Writes
  t3.addWaterfallColumn "player1_wf" ["Player1", "Points1"]

/-- Waterfall of the snapshot-checkpoint scenario with a given
snapshot-boundary function: `tail_length_years=100` (nothing expires). -/
def c5Waterfall (snapFn : Date → Date) : Waterfall :=
  { name := "player1_wf", input_maps := [("Player1", "Points1")],
    output_key := "Player1", tail_length := 100 * 10000, readonly := false,
    snapshot_master := mkSnapshotMaster "SNAPSHOT_test_prefix:player1_wf",
    snapshot_dates := { dates := [], dates_keys := [] },
    dateToSnapshotDate := snapFn }

/-- Refresh run of the snapshot-checkpoint scenario, parameterised by the
snapshot-boundary function (`quarterSnapshotDate` is the Waterfall class's
own; `mockSnapshotDate` is the test harness override under which the spec's
expected checkpoint dates were recorded). -/
def c5Run (snapFn : Date → Date) : Except RErr (Waterfall × Table) :=
  match c5Table with
  | .error e => .error (.table e)
  | .ok t => (c5Waterfall snapFn).refresh t

/-- Checkpoint dates the scenario run records. -/
def c5CheckpointDates (snapFn : Date → Date) : Except RErr (List Date) :=
  match c5Run snapFn with
  | .error e => .error e
  | .ok (w, _) => .ok w.snapshot_dates.dates

/-- Stored snapshot of the scenario run at a date. -/
def c5SnapshotAt (snapFn : Date → Date) (d : Date) : Option Snapshot :=
  match c5Run snapFn with
  | .error _ => none
  | .ok (w, _) => (SnapshotMaster.get_date_value w.snapshot_master d).1

/-- Table of the new-key scenario of C3: two flat columns A and B with no
declared dependents, then a write of a previously-unseen key at (1, A). -/
def c3Run : Except TableErr Table := do
  let t1 ← emptyTable.add_column (mkFlatColumn "A")
  let t2 ← t1.add_column (mkFlatColumn "B")
  t2.set_cell_value (CellAddr.mk 1 "A") "key" (.intV 100)

/-- Backing snapshot storage of the C4 counterexample: checkpoints stored
at dates 10 (accumulator A↦1) and 20 (accumulator B↦2), under the paths
and composite keys a `SnapshotMaster` with column name "t:wf" uses. -/
def c4Storage : String → StoreOutcome Snapshot := fun p =>
  if p = CELL_FILES_DIR ++ "/SNAPSHOT-t:wf_10" then
    .okPage [("10: " ++ SNAPSHOT_KEY, [(.strV "A", 1)])]
  else if p = CELL_FILES_DIR ++ "/SNAPSHOT-t:wf_20" then
    .okPage [("20: " ++ SNAPSHOT_KEY, [(.strV "B", 2)])]
  else .absent

/-- Waterfall state of the C4 counterexample: the checkpoint index records
dates 10 and 20, both with stored snapshots, and the refresh is about to
run with earliest dirty date 20 — so a checkpoint exists exactly at
`min_date`. -/
def c4CounterWaterfall : Waterfall :=
  { name := "wf", input_maps := [("K", "V")], output_key := "K",
    tail_length := 10000, readonly := false,
    snapshot_master := mkSnapshotMaster "t:wf" false c4Storage,
    snapshot_dates :=
      { dates := [10, 20],
        dates_keys := [(10, [SNAPSHOT_KEY]), (20, [SNAPSHOT_KEY])] },
    dateToSnapshotDate := quarterSnapshotDate }

/-- Cell store whose backing storage fails every load (for the C8
witness). -/
def c8FailMaster : PageMaster CellAddr PyVal :=
  mkCellMaster "p" 80 false (fun _ => .failLoad)

/-- Number of graph keys still white: the recursion budget of the DFS of
`topological` (each nesting level grays a previously white key). -/
def whiteCount (g : Graph) (s : TopoState) : Nat :=
  ((gkeys g).filter (fun k => decide (s.color k = Color.white))).length

/-- Invariant of the DFS of `topological`: only keys are ever colored;
every black node carries a finish time that is at most the clock and
exceeds the finish times of all its key-children, which are black too;
finish times are bounded by the clock, pairwise distinct, and present
only on black nodes. -/
def TopoInv (g : Graph) (s : TopoState) : Prop :=
  (∀ u, s.color u ≠ Color.white → isKey g u = true) ∧
  (∀ u, s.color u = Color.black →
    ∃ fu, s.finishT u = some fu ∧ fu ≤ s.time ∧
      ∀ w, EdgeG g u w →
        s.color w = Color.black ∧ ∃ fw, s.finishT w = some fw ∧ fw < fu) ∧
  (∀ u fu, s.finishT u = some fu → fu ≤ s.time) ∧
  (∀ u w fu fw, u ≠ w → s.finishT u = some fu → s.finishT w = some fw →
    fu ≠ fw) ∧
  (∀ u, s.finishT u ≠ none → s.color u = Color.black)

/-- The single step of the `for dep in graph[v]` loop of `dfs`, exactly
the fold step of `dfsF`. -/
def dfsStep (g : Graph) (fuel : Nat) (acc : Except TopoErr TopoState)
    (dep : String) : Except TopoErr TopoState :=
  match acc with
  | .error e => .error e
  | .ok s1 =>
    if isKey g dep then
      if s1.color dep ≠ Color.black then dfsF g fuel s1 dep else .ok s1
    else .ok s1

/-- Full specification of a `dfs` call on a white key at a given fuel:
no fuel exhaustion, a cycle error only on genuinely cyclic graphs, and on
success the invariant is preserved, the node is black, blacks are
preserved, the gray set is unchanged, finish times are preserved, the
clock advances and the white count does not grow. -/
def DfsGood (g : Graph) (fuel : Nat) : Prop :=
  ∀ s v, TopoInv g s → isKey g v = true → s.color v = Color.white →
    (∀ u, s.color u = Color.gray → Relation.ReflTransGen (EdgeG g) u v) →
    whiteCount g s + 1 ≤ fuel →
    dfsF g fuel s v ≠ .error .fuelOut ∧
    (dfsF g fuel s v = .error .cycle →
      ∃ w, Relation.TransGen (EdgeG g) w w) ∧
    (∀ s1, dfsF g fuel s v = .ok s1 →
      TopoInv g s1 ∧ s1.color v = Color.black ∧
      (∀ u, s.color u = Color.black → s1.color u = Color.black) ∧
      (∀ u, s1.color u = Color.gray ↔ s.color u = Color.gray) ∧
      (∀ u fu, s.finishT u = some fu → s1.finishT u = some fu) ∧
      s.time ≤ s1.time ∧
      whiteCount g s1 ≤ whiteCount g s)

/-- Acyclic two-node graph (with a stray dependency on the unregistered
name "zz") for the C2 witness. -/
def c2AcyGraph : Graph := [("a", ["b", "zz"]), ("b", [])]

/-- Two-node cyclic graph for the C2 witness. -/
def c2CycGraph : Graph := [("p", ["q"]), ("q", ["p"])]

/-- Rank function showing `c2AcyGraph` acyclic: edges strictly increase
it. -/
def c2Rank (u : String) : Nat := if u = "a" then 0 else 1

/-! ## Theorems -/

/-- Helper: a `get_cell_value` call with the availability check disabled
can never produce the availability error. -/
theorem get_cell_value_unchecked_ne_notAvailable (t : Table) (a : CellAddr)
    (k : String) (availOn : Int) :
    t.get_cell_value a k availOn false ≠ .error .notAvailable := by
  unfold Table.get_cell_value
  simp only [Bool.false_eq_true, if_false]
  cases h : (t.cells.get_value a k).1 with
  | none =>
    simp only [Table.keyInitPath]
    cases hc : Table.getColumn { t with cells := (t.cells.get_value a k).2 } a.col with
    | none => simp
    | some col =>
      simp only
      cases hs : PageMaster.set_value (t.cells.get_value a k).2 a k
          (if col.key_init a k = PyVal.pyNone then PyVal.noneClass
            else col.key_init a k) with
      | error e => simp
      | ok cells' => simp
  | some v =>
    by_cases hv : v = PyVal.pyNone
    · subst hv
      simp only [if_pos rfl, Table.keyInitPath]
      cases hc : Table.getColumn { t with cells := (t.cells.get_value a k).2 } a.col with
      | none => simp
      | some col =>
        simp only
        cases hs : PageMaster.set_value (t.cells.get_value a k).2 a k
            (if col.key_init a k = PyVal.pyNone then PyVal.noneClass
              else col.key_init a k) with
        | error e => simp
        | ok cells' => simp
    · simp [hv]

/-- C10: availability enforcement is off by default — the
`check_date_availability` parameter of `Table.get_cell_value` defaults to
the module-level `CHECK_DATE_AVAILABILITY`, which is `False`, so a call
that leaves it at its default behaves exactly like a call with the check
disabled and never raises the availability error, for every table,
address, key and `assert_available_on`. -/
theorem c10_availability_check_off_by_default (t : Table) (a : CellAddr)
    (k : String) (availOn : Int) :
    CHECK_DATE_AVAILABILITY = false ∧
    t.get_cell_value a k availOn = t.get_cell_value a k availOn false ∧
    t.get_cell_value a k availOn ≠ .error .notAvailable := by
  refine ⟨rfl, rfl, ?_⟩
  exact get_cell_value_unchecked_ne_notAvailable t a k availOn

/-- C9: with availability enforcement enabled, a read of a registered
column whose availability function gives `A` fails with the availability
error exactly when `assert_available_on < A(addr)`; when
`assert_available_on ≥ A(addr)` the availability error is not raised and
a stored cell value is returned; moreover `A(addr) = date + 1` for a
`ProtectedColumn` and `A(addr) = date` for a base `Column`. -/
theorem c9_availability_invariant (t : Table) (a : CellAddr) (k : String)
    (availOn : Int) (col : Column)
    (hcol : t.getColumn a.col = some col) :
    (availOn < col.available_on_date a →
      t.get_cell_value a k availOn true = .error .notAvailable) ∧
    (col.available_on_date a ≤ availOn →
      t.get_cell_value a k availOn true ≠ .error .notAvailable ∧
      ∀ v, (t.cells.get_value a k).1 = some v → v ≠ PyVal.pyNone →
        t.get_cell_value a k availOn true =
          .ok (v, { t with cells := (t.cells.get_value a k).2 })) ∧
    (∀ (n : String) (deps : List String) (b : CellAddr),
      (mkProtectedColumn n deps).available_on_date b = b.date + 1 ∧
      (mkFlatColumn n deps).available_on_date b = b.date) := by
  refine ⟨?_, ?_, fun n deps b => ⟨rfl, rfl⟩⟩
  · intro hlt
    unfold Table.get_cell_value
    simp [hcol, hlt]
  · intro hge
    have hnotlt : ¬ availOn < col.available_on_date a := not_lt.mpr hge
    constructor
    · unfold Table.get_cell_value
      simp only [hcol, hnotlt, if_true, if_false]
      have := get_cell_value_unchecked_ne_notAvailable t a k availOn
      unfold Table.get_cell_value at this
      simpa using this
    · intro v hv hvn
      unfold Table.get_cell_value
      simp [hcol, hnotlt, hv, hvn]

/-- Witness for C9 at a concrete input: in the table produced by the C3
scenario run (column "A" flat and registered, value 100 stored at
date 1 / key "key"), a read asserted available on date 0 raises the
availability error, and a read asserted available on date 1 returns the
stored 100. -/
theorem c9_availability_invariant_witness :
    (c3Run.toOption.getD emptyTable).getColumn "A" =
      some (mkFlatColumn "A") ∧
    (c3Run.toOption.getD emptyTable).get_cell_value (CellAddr.mk 1 "A")
      "key" 0 true = .error .notAvailable ∧
    ((c3Run.toOption.getD emptyTable).get_cell_value (CellAddr.mk 1 "A")
        "key" 1 true ≠ .error .notAvailable) := by
  have h := c9_availability_invariant (c3Run.toOption.getD emptyTable)
    (CellAddr.mk 1 "A") "key" 0 (mkFlatColumn "A") (by rfl)
  have h1 := c9_availability_invariant (c3Run.toOption.getD emptyTable)
    (CellAddr.mk 1 "A") "key" 1 (mkFlatColumn "A") (by rfl)
  refine ⟨rfl, h.1 (by decide), (h1.2.1 (by decide)).1⟩

/-- C3 (divergence evidence): after the scenario write of a
previously-unseen key at (1, "A") into a table with registered columns
"A" and "B", the write succeeds and records the key in the date index,
yet neither column's dirty set receives the address of date 1 — the
`new_key_encountered` branch of `Table.set_cell_value` is dead because
`DateSet.push_date` returns `None` on every path. -/
theorem c3_new_key_no_full_row_dirtying :
    c3Run.toOption.map (fun t =>
      (t.needRefreshOf "A", t.needRefreshOf "B", t.ds.dates,
        lookupA t.ds.dates_keys 1)) =
      some ([], [], [1], some ["key"]) := by rfl

/-- C1: windowed-aggregation reference scenario — after the Waterfall
column's `refresh()` completes on the table holding metric values 1, 20,
300, 4000, 50000 at dates 10000..50000 (no value at 60000) for key "X"
with a 30000-unit window, the Waterfall cells read 0, 1, 21, 321, 4320,
54300 at the six dates. -/
theorem c1_waterfall_reference_values :
    c1Values = .ok [some (.intV 0), some (.intV 1), some (.intV 21),
      some (.intV 321), some (.intV 4320), some (.intV 54300)] := by rfl

/-- C5 counterexample: running the snapshot-checkpoint scenario with the
Waterfall class's own quarter-boundary `_date_to_snapshot_date` records
the checkpoint dates 49801, 149801, 179801, 219801, 249801, 299801 — not
the [0, 100000, 200000, 300000] the claim states. -/
theorem c5_checkpoint_dates_counterexample :
    c5CheckpointDates quarterSnapshotDate =
      .ok [49801, 149801, 179801, 219801, 249801, 299801] ∧
    c5CheckpointDates quarterSnapshotDate ≠
      .ok [0, 100000, 200000, 300000] := by
  constructor
  · rfl
  · intro h
    rw [show c5CheckpointDates quarterSnapshotDate =
      .ok [49801, 149801, 179801, 219801, 249801, 299801] from rfl] at h
    simp at h

/-- C5 amended: with the snapshot-boundary function rounded down to
multiples of 100000 (the `MockWaterfall._date_to_snapshot_date` override
under which the spec's reference numbers were produced), the scenario
records exactly the checkpoint dates [0, 100000, 200000, 300000], and the
stored snapshots at 100000, 200000, 300000 are X↦1, X↦321, X↦54321. -/
theorem c5_checkpoint_dates_amended :
    c5CheckpointDates mockSnapshotDate = .ok [0, 100000, 200000, 300000] ∧
    c5SnapshotAt mockSnapshotDate 100000 = some [(.strV "X", 1)] ∧
    c5SnapshotAt mockSnapshotDate 200000 = some [(.strV "X", 321)] ∧
    c5SnapshotAt mockSnapshotDate 300000 = some [(.strV "X", 54321)] :=
  ⟨rfl, rfl, rfl, rfl⟩

/-- Helper: monotone access into a `≤`-sorted list via `getD`. -/
theorem sorted_getD_mono {l : List Date} (h : l.Sorted (· ≤ ·)) {i j : Nat}
    (hij : i ≤ j) (hj : j < l.length) : l.getD i 0 ≤ l.getD j 0 := by
  rcases Nat.eq_or_lt_of_le hij with rfl | hlt
  · exact le_refl _
  · rw [List.getD_eq_getElem l 0 (lt_trans hlt hj), List.getD_eq_getElem l 0 hj]
    exact List.pairwise_iff_getElem.mp h i j (lt_trans hlt hj) hj hlt

/-- Helper: `getD` at a valid index is a member. -/
theorem getD_mem {l : List Date} {i : Nat} (h : i < l.length) :
    l.getD i 0 ∈ l := by
  rw [List.getD_eq_getElem l 0 h]
  exact List.getElem_mem h

/-- Correctness of the binary-search recursion: on a sorted list, with the
invariant that indices below `st` hold dates `≤ d` and indices from `en`
hold dates `> d`, the result is the index of the smallest date greater
than `d`. -/
theorem sigd_go_spec (dates : List Date) (d : Date) :
    ∀ (fuel st en : Nat), en ≤ dates.length → st ≤ en → en - st ≤ fuel →
    dates.Sorted (· ≤ ·) →
    (∀ i, i < st → dates.getD i 0 ≤ d) →
    (∀ i, en ≤ i → i < dates.length → d < dates.getD i 0) →
    st ≤ smallest_ind_gt_date_go dates d fuel st en ∧
    smallest_ind_gt_date_go dates d fuel st en ≤ en ∧
    (∀ i, i < smallest_ind_gt_date_go dates d fuel st en →
      dates.getD i 0 ≤ d) ∧
    (∀ i, smallest_ind_gt_date_go dates d fuel st en ≤ i →
      i < dates.length → d < dates.getD i 0) := by
  intro fuel
  induction fuel with
  | zero =>
    intro st en hen hst hfuel hsorted hlow hhigh
    have hse : st = en := by omega
    subst hse
    simp only [smallest_ind_gt_date_go]
    exact ⟨le_refl _, le_refl _, hlow, hhigh⟩
  | succ fuel ih =>
    intro st en hen hst hfuel hsorted hlow hhigh
    by_cases hge : st ≥ en
    · have hse : st = en := by omega
      subst hse
      simp only [smallest_ind_gt_date_go, if_pos hge]
      exact ⟨le_refl _, le_refl _, hlow, hhigh⟩
    · have hlt : st < en := by omega
      have hm1 : st ≤ (st + en) / 2 := by omega
      have hm2 : (st + en) / 2 < en := by omega
      simp only [smallest_ind_gt_date_go, if_neg hge]
      by_cases hcmp : dates.getD ((st + en) / 2) 0 > d
      · simp only [if_pos hcmp]
        have := ih st ((st + en) / 2) (by omega) hm1 (by omega) hsorted hlow
          (fun i hi hilen =>
            lt_of_lt_of_le hcmp (sorted_getD_mono hsorted hi hilen))
        exact ⟨this.1, le_trans this.2.1 (le_of_lt hm2), this.2.2⟩
      · simp only [if_neg hcmp]
        have hle : dates.getD ((st + en) / 2) 0 ≤ d := not_lt.mp hcmp
        have := ih ((st + en) / 2 + 1) en hen (by omega) (by omega) hsorted
          (fun i hi => by
            by_cases his : i < st
            · exact hlow i his
            · exact le_trans
                (sorted_getD_mono hsorted (by omega) (by omega)) hle)
          hhigh
        exact ⟨by omega, this.2.1, this.2.2⟩

/-- Correctness of `smallest_ind_gt_date` as `DateSet` calls it: on a
sorted date list it returns the count of dates `≤ d`, i.e. the index of
the smallest date greater than `d`. -/
theorem smallestIndGt_spec (ds : DateSet) (d : Date)
    (hsorted : ds.dates.Sorted (· ≤ ·)) :
    smallestIndGt ds d ≤ ds.dates.length ∧
    (∀ i, i < smallestIndGt ds d → ds.dates.getD i 0 ≤ d) ∧
    (∀ i, smallestIndGt ds d ≤ i → i < ds.dates.length →
      d < ds.dates.getD i 0) := by
  have := sigd_go_spec ds.dates d (ds.dates.length - 0) 0 ds.dates.length
    (le_refl _) (Nat.zero_le _) (le_refl _) hsorted
    (fun i hi => absurd hi (Nat.not_lt_zero i))
    (fun i hi hilen => absurd hilen (by omega))
  exact ⟨this.2.1, this.2.2⟩

/-- C4 amended: for a `Waterfall.refresh` with earliest dirty date
`min_date` and a sorted checkpoint index, the starting accumulator is
loaded from the latest recorded checkpoint whose date is at or before
`min_date` (the claim's "strictly before" corrected to "at or before"):
if no checkpoint date is `≤ min_date`, the refresh starts from an empty
accumulator positioned at the snapshot boundary covering `min_date`; if
the latest such checkpoint date has a stored snapshot it becomes the
starting accumulator; and if the snapshot store has none at that recorded
date, the fatal missing-checkpoint `LookupError` is raised. -/
theorem c4_checkpoint_selection (w : Waterfall) (min_date : Date)
    (hsorted : w.snapshot_dates.dates.Sorted (· ≤ ·)) :
    ((∀ d ∈ w.snapshot_dates.dates, min_date < d) →
      w.refreshInit min_date =
        .ok (w.dateToSnapshotDate min_date, [], w)) ∧
    (∀ dstar ∈ w.snapshot_dates.dates, dstar ≤ min_date →
      (∀ d ∈ w.snapshot_dates.dates, d ≤ min_date → d ≤ dstar) →
      (∀ snap,
        (SnapshotMaster.get_date_value w.snapshot_master dstar).1 =
            some snap →
          w.refreshInit min_date = .ok (dstar, snap,
            { w with snapshot_master :=
              (SnapshotMaster.get_date_value w.snapshot_master dstar).2 })) ∧
      ((SnapshotMaster.get_date_value w.snapshot_master dstar).1 = none →
        w.refreshInit min_date = .error .missingSnapshot)) := by
  obtain ⟨hrlen, hrlow, hrhigh⟩ :=
    smallestIndGt_spec w.snapshot_dates min_date hsorted
  constructor
  · intro hall
    have hr0 : smallestIndGt w.snapshot_dates min_date = 0 := by
      by_contra hne
      have h1 : 0 < smallestIndGt w.snapshot_dates min_date := by omega
      have hlen : 0 < w.snapshot_dates.dates.length := by omega
      have := hrlow 0 h1
      exact absurd this (not_le.mpr (hall _ (getD_mem hlen)))
    unfold Waterfall.refreshInit
    rw [hr0]
    simp
  · intro dstar hmem hle hmax
    obtain ⟨j, hj, hjval⟩ := List.getElem_of_mem hmem
    have hjD : w.snapshot_dates.dates.getD j 0 = dstar := by
      rw [List.getD_eq_getElem _ 0 hj]; exact hjval
    have hjr : j < smallestIndGt w.snapshot_dates min_date := by
      by_contra hge
      have := hrhigh j (by omega) hj
      rw [hjD] at this
      exact absurd hle (not_le.mpr this)
    have hr1 : 1 ≤ smallestIndGt w.snapshot_dates min_date := by omega
    have hfd : w.snapshot_dates.dates.getD
        (smallestIndGt w.snapshot_dates min_date - 1) 0 = dstar := by
      have hlt : smallestIndGt w.snapshot_dates min_date - 1 <
          w.snapshot_dates.dates.length := by omega
      have h1 : w.snapshot_dates.dates.getD
          (smallestIndGt w.snapshot_dates min_date - 1) 0 ≤ min_date :=
        hrlow _ (by omega)
      have h2 : w.snapshot_dates.dates.getD
          (smallestIndGt w.snapshot_dates min_date - 1) 0 ≤ dstar :=
        hmax _ (getD_mem hlt) h1
      have h3 : dstar ≤ w.snapshot_dates.dates.getD
          (smallestIndGt w.snapshot_dates min_date - 1) 0 := by
        rw [← hjD]
        exact sorted_getD_mono hsorted (Nat.le_pred_of_lt hjr) hlt
      exact le_antisymm h2 h3
    have hne : ¬ (((smallestIndGt w.snapshot_dates min_date : Int) - 1)
        = -1) := by omega
    have htn : ((smallestIndGt w.snapshot_dates min_date : Int) - 1).toNat
        = smallestIndGt w.snapshot_dates min_date - 1 := by omega
    constructor
    · intro snap hsnap
      unfold Waterfall.refreshInit
      rw [if_neg hne, htn, hfd]
      rcases hgd : SnapshotMaster.get_date_value w.snapshot_master dstar
        with ⟨o, sm'⟩
      rw [hgd] at hsnap
      simp only at hsnap
      subst hsnap
      simp [hgd]
    · intro hnone
      unfold Waterfall.refreshInit
      rw [if_neg hne, htn, hfd]
      rcases hgd : SnapshotMaster.get_date_value w.snapshot_master dstar
        with ⟨o, sm'⟩
      rw [hgd] at hnone
      simp only at hnone
      subst hnone
      simp [hgd]

/-- Witness for C4 at a concrete input: on the counterexample Waterfall
state (checkpoints recorded at 10 and 20) with `min_date = 15`, the latest
checkpoint at or before 15 is 10 and its stored snapshot A↦1 becomes the
starting accumulator. -/
theorem c4_checkpoint_selection_witness :
    (c4CounterWaterfall.refreshInit 15).toOption.map
      (fun p => (p.1, p.2.1)) = some (10, [(.strV "A", 1)]) := by
  have h := (c4_checkpoint_selection c4CounterWaterfall 15 (by decide)).2
    10 (by decide) (by decide) (by decide)
  have h2 := h.1 [(.strV "A", 1)] (by rfl)
  rw [h2]
  rfl

/-- C4 counterexample: on the same state with `min_date = 20`, a
checkpoint recorded strictly before `min_date` exists (date 10, snapshot
A↦1), yet `refresh` loads the checkpoint at date 20 itself — its snapshot
B↦2 becomes the starting accumulator, so the claim's "latest recorded
checkpoint whose date is strictly before min_date" does not describe the
code. -/
theorem c4_strictly_before_counterexample :
    (c4CounterWaterfall.refreshInit 20).toOption.map
      (fun p => (p.1, p.2.1)) = some (20, [(.strV "B", 2)]) ∧
    c4CounterWaterfall.snapshot_dates.dates = [10, 20] ∧
    (SnapshotMaster.get_date_value c4CounterWaterfall.snapshot_master
      10).1 = some [(.strV "A", 1)] ∧
    ¬ ((20 : Int) < 20) := by
  refine ⟨by rfl, by rfl, by rfl, by omega⟩

/-! ### PageMaster lemmas -/

/-- Helper: looking up the key just written by `dsetA`. -/
theorem lookupA_dsetA_self {α β : Type} [DecidableEq α]
    (l : List (α × β)) (k : α) (v : β) : lookupA (dsetA l k v) k = some v := by
  induction l with
  | nil => simp [dsetA, lookupA]
  | cons hd tl ih =>
    by_cases h : hd.1 = k
    · simp [dsetA, h, lookupA]
    · simp only [dsetA]
      rw [if_neg (by exact h)]
      simp only [lookupA]
      rw [if_neg (by exact h)]
      exact ih

/-- Helper: `get_page` under a writable store with reliable backing
storage and a positive cache bound always succeeds and leaves the
requested page at the front of the cache; the configuration fields and
storage reliability are preserved. -/
theorem get_page_spec {Addr V : Type} (s : PageMaster Addr V) (a : Addr)
    (hro : s.readonly = false) (hrel : reliableStore s)
    (hcs : 1 ≤ s.cache_size) :
    ∃ p s', s.get_page a = .ok (p, s') ∧
      s'.cache = (s.addrToPage a, p) :: s'.cache.tail ∧
      s'.readonly = s.readonly ∧ s'.cache_size = s.cache_size ∧
      s'.addrStr = s.addrStr ∧ s'.addrToPage = s.addrToPage ∧
      reliableStore s' := by
  cases hfind : s.cache.findIdx? (fun c => c.1 = s.addrToPage a) with
  | some ci =>
    obtain ⟨hci, hidx⟩ := List.findIdx?_eq_some_iff_findIdx_eq.mp hfind
    have hget : (s.cache.getD ci ("", [])).1 = s.addrToPage a := by
      rw [List.getD_eq_getElem _ _ hci]
      have := @List.findIdx_getElem _ (fun c => decide (c.1 = s.addrToPage a))
        s.cache (hidx ▸ hci)
      simp only [hidx] at this
      exact of_decide_eq_true this
    simp only [PageMaster.get_page, hfind]
    refine ⟨(s.cache.getD ci ("", [])).2, _, rfl, ?_, rfl, rfl, rfl, rfl, hrel⟩
    simp only [List.tail_cons]
    conv_lhs => rw [show s.cache.getD ci ("", []) =
      (s.addrToPage a, (s.cache.getD ci ("", [])).2) from by rw [← hget]]
  | none =>
    cases hst : s.storage (s.fullPath (s.addrToPage a)) with
    | failLoad => exact absurd hst (hrel _)
    | absent =>
      simp only [PageMaster.get_page, hfind, PageMaster.load_new_page,
        PageMaster.load_file, hst, List.length_cons]
      by_cases hov : s.cache.length + 1 > s.cache_size
      · rw [if_pos hov]
        simp only [PageMaster.save_single_page, PageMaster.save_file, hro,
          Bool.false_eq_true, if_false]
        obtain ⟨n, hn⟩ : ∃ n, s.cache_size = n + 1 :=
          ⟨s.cache_size - 1, by omega⟩
        refine ⟨[], _, rfl, ?_, rfl, rfl, rfl, rfl, ?_⟩
        · simp only [hn, List.take_succ_cons, List.tail_cons]
        · intro p
          simp only
          split
          · intro h; cases h
          · exact hrel p
      · rw [if_neg hov]
        exact ⟨[], _, rfl, rfl, rfl, rfl, rfl, rfl, hrel⟩
    | okPage pg =>
      simp only [PageMaster.get_page, hfind, PageMaster.load_new_page,
        PageMaster.load_file, hst, List.length_cons]
      by_cases hov : s.cache.length + 1 > s.cache_size
      · rw [if_pos hov]
        simp only [PageMaster.save_single_page, PageMaster.save_file, hro,
          Bool.false_eq_true, if_false]
        obtain ⟨n, hn⟩ : ∃ n, s.cache_size = n + 1 :=
          ⟨s.cache_size - 1, by omega⟩
        refine ⟨pg, _, rfl, ?_, rfl, rfl, rfl, rfl, ?_⟩
        · simp only [hn, List.take_succ_cons, List.tail_cons]
        · intro p
          simp only
          split
          · intro h; cases h
          · exact hrel p
      · rw [if_neg hov]
        exact ⟨pg, _, rfl, rfl, rfl, rfl, rfl, rfl, hrel⟩

/-- Helper: `get_value` under the same conditions returns the page lookup
and the front-of-cache state of `get_page`. -/
theorem get_value_spec {Addr V : Type} (s : PageMaster Addr V) (a : Addr)
    (k : String) (hro : s.readonly = false) (hrel : reliableStore s)
    (hcs : 1 ≤ s.cache_size) :
    ∃ p s', s.get_page a = .ok (p, s') ∧
      s.get_value a k = (lookupA p (s.addr_key a k), s') := by
  obtain ⟨p, s', hgp, _⟩ := get_page_spec s a hro hrel hcs
  refine ⟨p, s', hgp, ?_⟩
  unfold PageMaster.get_value PageMaster.get_valueE
  rw [hgp]

/-- Helper: a `set_value` whose page is already at the front of the cache
(as `get_page` leaves it) writes the composite key into that front page. -/
theorem set_value_front {Addr V : Type} (s : PageMaster Addr V) (a : Addr)
    (k : String) (v : V) (p : Page V) (rest : List (String × Page V))
    (hc : s.cache = (s.addrToPage a, p) :: rest)
    (hro : s.readonly = false) :
    s.set_value a k v = .ok { s with
      cache := (s.addrToPage a, dsetA p (s.addr_key a k) v) :: rest } := by
  simp [PageMaster.set_value, PageMaster.get_page, PageMaster.mutateFront,
    hro, hc, List.findIdx?_cons]

/-- Helper: a `get_value` whose page is already at the front of the cache
is a pure lookup leaving the state unchanged. -/
theorem get_value_front {Addr V : Type} (s : PageMaster Addr V) (a : Addr)
    (k : String) (p : Page V) (rest : List (String × Page V))
    (hc : s.cache = (s.addrToPage a, p) :: rest) :
    s.get_value a k = (lookupA p (s.addr_key a k), s) := by
  obtain ⟨pfx, ro, cache, cs, astr, apg, stor⟩ := s
  simp only at hc
  subst hc
  simp [PageMaster.get_value, PageMaster.get_valueE, PageMaster.get_page,
    List.findIdx?_cons, PageMaster.addr_key]

/-- C8: `PageMaster.get_value` never raises — the ok result of the `try`
body is passed through, any error of the `try` body is swallowed into the
absent indicator `None` (with the state as of the raise point), and in
particular a read whose page is not cached and whose backing load fails
(I/O error or malformed page) returns `None` with the store untouched,
exactly as if the value had never been stored. -/
theorem c8_get_value_swallows_failures {Addr V : Type}
    (s : PageMaster Addr V) (a : Addr) (k : String) :
    (∀ r, s.get_valueE a k = .ok r → s.get_value a k = r) ∧
    (∀ e s', s.get_valueE a k = .error (e, s') →
      s.get_value a k = (none, s')) ∧
    (s.cache.findIdx? (fun c => c.1 = s.addrToPage a) = none →
      s.storage (s.fullPath (s.addrToPage a)) = .failLoad →
      s.get_value a k = (none, s)) := by
  refine ⟨?_, ?_, ?_⟩
  · intro r h
    unfold PageMaster.get_value
    rw [h]
  · intro e s' h
    unfold PageMaster.get_value
    rw [h]
  · intro hfind hst
    simp only [PageMaster.get_value, PageMaster.get_valueE,
      PageMaster.get_page, hfind, PageMaster.load_new_page,
      PageMaster.load_file, hst]

/-- Witness for C8 at a concrete input: on a cell store whose backing
storage fails every load, a read of an uncached page returns `None` and
leaves the store unchanged. -/
theorem c8_get_value_swallows_failures_witness :
    c8FailMaster.get_value (CellAddr.mk 20110101 "c") "k" =
      (none, c8FailMaster) := by
  exact (c8_get_value_swallows_failures c8FailMaster
    (CellAddr.mk 20110101 "c") "k").2.2 (by rfl) (by rfl)

/-- Helper: `keyInitPath` on a table whose cell page is at the front of
the cache (as it is right after the miss that reaches this branch): the
column's `key_init` result, normalised to `NoneClass`, is written into
that front page and returned. -/
theorem keyInitPath_spec (t : Table) (a : CellAddr) (k : String)
    (col : Column) (p : Page PyVal) (rest : List (String × Page PyVal))
    (hcol : t.getColumn a.col = some col)
    (hc : t.cells.cache = (t.cells.addrToPage a, p) :: rest)
    (hro : t.cells.readonly = false) :
    t.keyInitPath a k = .ok
      ((if col.key_init a k = PyVal.pyNone then PyVal.noneClass
        else col.key_init a k),
      { t with cells := { t.cells with
        cache := (t.cells.addrToPage a,
          dsetA p (t.cells.addr_key a k)
            (if col.key_init a k = PyVal.pyNone then PyVal.noneClass
              else col.key_init a k)) :: rest } }) := by
  have hset := set_value_front t.cells a k
    (if col.key_init a k = PyVal.pyNone then PyVal.noneClass
      else col.key_init a k) p rest hc hro
  simp only [Table.keyInitPath, hcol, hset]

/-- C7: reading the same (address, key) twice with no intervening write,
on a table whose cell store is writable, has reliable backing storage and
a positive cache bound, and whose addressed column is registered: both
calls return the identical value and the identical resulting table state;
the key-init branch cannot fire on the second call; when the first call
is a true miss the returned value is the column's `key_init` result
normalised to the `NoneClass` sentinel and it is stored; when the first
call is a hit the stored value is returned unchanged. -/
theorem c7_idempotent_reread (t : Table) (a : CellAddr) (k : String)
    (col : Column) (hcol : t.getColumn a.col = some col)
    (hro : t.cells.readonly = false) (hrel : reliableStore t.cells)
    (hcs : 1 ≤ t.cells.cache_size) :
    ∃ v t1, t.get_cell_value a k = .ok (v, t1) ∧
      t1.get_cell_value a k = .ok (v, t1) ∧
      ¬ t1.keyInitWouldFire a k ∧
      (t.keyInitWouldFire a k →
        v = (if col.key_init a k = PyVal.pyNone then PyVal.noneClass
          else col.key_init a k) ∧
        (t1.cells.get_value a k).1 = some v) ∧
      (¬ t.keyInitWouldFire a k →
        (t.cells.get_value a k).1 = some v) := by
  obtain ⟨p, s', hgp, hfront, hro', hcs', hstr', hpg', hrel'⟩ :=
    get_page_spec t.cells a hro hrel hcs
  have hgv : t.cells.get_value a k = (lookupA p (t.cells.addr_key a k), s') := by
    unfold PageMaster.get_value PageMaster.get_valueE
    rw [hgp]
  have hfront' : s'.cache = (s'.addrToPage a, p) :: s'.cache.tail := by
    rw [hpg']; exact hfront
  by_cases hmiss : lookupA p (t.cells.addr_key a k) = none ∨
      lookupA p (t.cells.addr_key a k) = some PyVal.pyNone
  · -- true miss (or stored Python None): key_init fires, result stored
    have hfire : t.keyInitWouldFire a k := by
      unfold Table.keyInitWouldFire
      rw [hgv]
      exact hmiss
    have hrne : (if col.key_init a k = PyVal.pyNone then PyVal.noneClass
        else col.key_init a k) ≠ PyVal.pyNone := by
      split
      · intro h; cases h
      · assumption
    have hcol1 : Table.getColumn { t with cells := s' } a.col = some col :=
      hcol
    have hkip := keyInitPath_spec { t with cells := s' } a k col p
      s'.cache.tail hcol1 hfront' (hro'.trans hro)
    have hfirst : t.get_cell_value a k =
        .ok ((if col.key_init a k = PyVal.pyNone then PyVal.noneClass
          else col.key_init a k),
        { t with cells := { s' with
          cache := (s'.addrToPage a, dsetA p (s'.addr_key a k)
            (if col.key_init a k = PyVal.pyNone then PyVal.noneClass
              else col.key_init a k)) :: s'.cache.tail } }) := by
      unfold Table.get_cell_value
      simp only [CHECK_DATE_AVAILABILITY, Bool.false_eq_true, if_false]
      rw [hgv]
      rcases hmiss with hm | hm
      · rw [hm]
        exact hkip
      · rw [hm]
        simp only [if_pos rfl]
        exact hkip
    have hgv2 : ({ t with cells := { s' with
        cache := (s'.addrToPage a, dsetA p (s'.addr_key a k)
          (if col.key_init a k = PyVal.pyNone then PyVal.noneClass
            else col.key_init a k)) :: s'.cache.tail } } :
        Table).cells.get_value a k =
        (some (if col.key_init a k = PyVal.pyNone then PyVal.noneClass
          else col.key_init a k),
        ({ s' with cache := (s'.addrToPage a, dsetA p (s'.addr_key a k)
          (if col.key_init a k = PyVal.pyNone then PyVal.noneClass
            else col.key_init a k)) :: s'.cache.tail } :
          PageMaster CellAddr PyVal)) := by
      rw [get_value_front _ a k _ s'.cache.tail rfl]
      rw [show ({ s' with cache := (s'.addrToPage a,
        dsetA p (s'.addr_key a k)
          (if col.key_init a k = PyVal.pyNone then PyVal.noneClass
            else col.key_init a k)) :: s'.cache.tail } :
        PageMaster CellAddr PyVal).addr_key a k = s'.addr_key a k
        from rfl]
      rw [lookupA_dsetA_self]
    refine ⟨(if col.key_init a k = PyVal.pyNone then PyVal.noneClass
        else col.key_init a k),
      { t with cells := { s' with
        cache := (s'.addrToPage a, dsetA p (s'.addr_key a k)
          (if col.key_init a k = PyVal.pyNone then PyVal.noneClass
            else col.key_init a k)) :: s'.cache.tail } },
      hfirst, ?_, ?_, fun _ => ⟨rfl, ?_⟩, fun hnf => absurd hfire hnf⟩
    · unfold Table.get_cell_value
      simp only [CHECK_DATE_AVAILABILITY, Bool.false_eq_true, if_false]
      rw [hgv2]
      simp only [if_neg hrne]
    · unfold Table.keyInitWouldFire
      rw [hgv2]
      simp only
      intro hor
      rcases hor with h | h
      · cases h
      · rw [Option.some_inj] at h
        exact hrne h
    · rw [hgv2]
  · -- hit: the stored value is returned, no key_init
    push_neg at hmiss
    obtain ⟨hne, hnpn⟩ := hmiss
    cases hlv : lookupA p (t.cells.addr_key a k) with
    | none => exact absurd hlv hne
    | some v =>
      have hvne : v ≠ PyVal.pyNone := by
        intro h
        rw [h] at hlv
        exact hnpn hlv
      set t1 : Table := { t with cells := s' } with ht1
      have hfirst : t.get_cell_value a k = .ok (v, t1) := by
        unfold Table.get_cell_value
        simp only [CHECK_DATE_AVAILABILITY, Bool.false_eq_true, if_false]
        rw [hgv, hlv]
        simp only [if_neg hvne]
      have hgv2 : t1.cells.get_value a k = (some v, t1.cells) := by
        have := get_value_front t1.cells a k p s'.cache.tail (by rw [ht1]; exact hfront')
        rw [this]
        have haddrkey : t1.cells.addr_key a k = t.cells.addr_key a k := by
          unfold PageMaster.addr_key
          rw [ht1, hstr']
        rw [haddrkey, hlv]
      have hnofire : ¬ t1.keyInitWouldFire a k := by
        unfold Table.keyInitWouldFire
        rw [hgv2]
        simp only
        intro hor
        rcases hor with h | h
        · cases h
        · rw [Option.some_inj] at h
          exact hvne h
      have hfire0 : ¬ t.keyInitWouldFire a k := by
        unfold Table.keyInitWouldFire
        rw [hgv, hlv]
        simp only
        intro hor
        rcases hor with h | h
        · cases h
        · rw [Option.some_inj] at h
          exact hvne h
      refine ⟨v, t1, hfirst, ?_, hnofire, fun hf => absurd hf hfire0,
        fun _ => by rw [hgv, hlv]⟩
      unfold Table.get_cell_value
      simp only [CHECK_DATE_AVAILABILITY, Bool.false_eq_true, if_false]
      rw [hgv2]
      simp only [if_neg hvne]

/-- Witness for C7 at a concrete input: on the C3 scenario table (columns
A and B registered, writable in-memory store), two reads of the unwritten
cell (2, B) / "k" both return the `NoneClass` sentinel and the same
state. -/
theorem c7_idempotent_reread_witness :
    ∃ v t1,
      (c3Run.toOption.getD emptyTable).get_cell_value (CellAddr.mk 2 "B")
        "k" = .ok (v, t1) ∧
      t1.get_cell_value (CellAddr.mk 2 "B") "k" = .ok (v, t1) ∧
      ¬ t1.keyInitWouldFire (CellAddr.mk 2 "B") "k" := by
  obtain ⟨v, t1, h1, h2, h3, _, _⟩ :=
    c7_idempotent_reread (c3Run.toOption.getD emptyTable)
      (CellAddr.mk 2 "B") "k" (mkFlatColumn "B") (by rfl) (by rfl)
      (fun p => by
        rw [show (c3Run.toOption.getD emptyTable).cells.storage p =
          StoreOutcome.absent from rfl]
        intro h; cases h)
      (by rw [show (c3Run.toOption.getD emptyTable).cells.cache_size = 80
        from rfl]; omega)
  exact ⟨v, t1, h1, h2, h3⟩

/-! ### Move-to-front and last-use lemmas (for the LRU claim) -/

/-- Helper: `mtf` over an extended history is one `mtfStep`. -/
theorem mtf_append (ps : List String) (p : String) :
    mtf (ps ++ [p]) = mtfStep (mtf ps) p := by
  unfold mtf
  rw [List.foldl_append]
  rfl

/-- Helper: membership in an `mtfStep`. -/
theorem mem_mtfStep {l : List String} {p x : String} :
    x ∈ mtfStep l p ↔ x = p ∨ x ∈ l := by
  unfold mtfStep
  by_cases hxp : x = p
  · simp [hxp]
  · simp only [List.mem_cons, hxp, false_or]
    rw [List.mem_erase_of_ne hxp]

/-- Helper: the move-to-front list has the same members as the history. -/
theorem mem_mtf {ps : List String} {x : String} : x ∈ mtf ps ↔ x ∈ ps := by
  induction ps using List.reverseRecOn with
  | nil => simp [mtf]
  | append_singleton l a ih =>
    rw [mtf_append, mem_mtfStep]
    simp [ih, or_comm]

/-- Helper: the move-to-front list has no duplicates. -/
theorem mtf_nodup (ps : List String) : (mtf ps).Nodup := by
  induction ps using List.reverseRecOn with
  | nil => simp [mtf]
  | append_singleton l a ih =>
    rw [mtf_append]
    unfold mtfStep
    exact List.Nodup.cons (ih.not_mem_erase) (ih.erase a)

/-- Helper: last-use index over an extended history. -/
theorem lastUse_append (ps : List String) (p q : String) :
    lastUse (ps ++ [p]) q =
      if q = p then some ps.length else lastUse ps q := by
  unfold lastUse
  rw [List.reverse_append]
  simp only [List.reverse_cons, List.reverse_nil, List.nil_append,
    List.cons_append, List.nil_append, List.findIdx?_cons,
    List.length_append, List.length_cons, List.length_nil]
  by_cases hqp : q = p
  · subst hqp
    rw [if_pos rfl, if_pos (by simp)]
    norm_num
  · rw [if_neg (by simpa using (Ne.symm hqp))]
    cases hf : ps.reverse.findIdx? (fun x => x = q) with
    | none =>
      rw [if_neg hqp]
      rw [show (0 + 1 : Nat) = 1 from rfl, List.findIdx?_start_succ, hf]
      rfl
    | some i =>
      rw [if_neg hqp]
      rw [show (0 + 1 : Nat) = 1 from rfl, List.findIdx?_start_succ, hf]
      show some (ps.length + 1 - 1 - (i + 1)) = some (ps.length - 1 - i)
      congr 1
      omega


/-- Helper: every member of the history has a defined last use, below the
history's length. -/
theorem lastUse_mem {ps : List String} {x : String} (h : x ∈ ps) :
    ∃ i, lastUse ps x = some i ∧ i < ps.length := by
  unfold lastUse
  cases hf : ps.reverse.findIdx? (fun q => q = x) with
  | none =>
    rw [List.findIdx?_eq_none_iff] at hf
    have := hf x (by simpa using h)
    simp at this
  | some i =>
    have hilt : i < ps.length := by
      have := (List.findIdx?_eq_some_iff_findIdx_eq.mp hf).1
      simpa using this
    have hlen : 1 ≤ ps.length := by
      cases ps with
      | nil => cases h
      | cons a t => simp
    exact ⟨ps.length - 1 - i, rfl, by omega⟩

/-- Helper: the move-to-front list is ordered by last use, most recent
first. -/
theorem mtf_pairwise (ps : List String) :
    (mtf ps).Pairwise (recencyLt ps) := by
  induction ps using List.reverseRecOn with
  | nil => simp [mtf]
  | append_singleton l a ih =>
    rw [mtf_append]
    unfold mtfStep
    constructor
    · intro b hb
      have hbm := List.mem_of_mem_erase hb
      have hbne : b ≠ a := by
        intro he
        subst he
        exact (mtf_nodup l).not_mem_erase hb
      have hbl : b ∈ l := mem_mtf.mp hbm
      obtain ⟨ib, hib, hiblt⟩ := lastUse_mem hbl
      intro ix iy hx hy
      rw [lastUse_append, if_pos rfl] at hx
      rw [lastUse_append, if_neg hbne, hib] at hy
      rw [Option.some_inj] at hx hy
      omega
    · have hsub : ((mtf l).erase a).Pairwise (recencyLt l) :=
        ih.sublist (List.erase_sublist a (mtf l))
      refine List.Pairwise.imp_of_mem ?_ hsub
      intro x y hx hy hr
      have hxne : x ≠ a := by
        intro he; subst he
        exact (mtf_nodup l).not_mem_erase hx
      have hyne : y ≠ a := by
        intro he; subst he
        exact (mtf_nodup l).not_mem_erase hy
      intro ix iy hix hiy
      rw [lastUse_append, if_neg hxne] at hix
      rw [lastUse_append, if_neg hyne] at hiy
      exact hr ix iy hix hiy

/-- Helper: erasing an element that lies inside a prefix commutes with
taking the prefix (one shorter). -/
theorem erase_take {α : Type} [DecidableEq α] :
    ∀ (t : List α) (k : Nat) (n : α), n ∈ t.take k →
      (t.take k).erase n = (t.erase n).take (k - 1)
  | [], k, n, h => by simp at h
  | x :: u, 0, n, h => by simp at h
  | x :: u, k + 1, n, h => by
    by_cases hnx : n = x
    · subst hnx
      simp [List.take_succ_cons, List.erase_cons_head]
    · simp only [List.take_succ_cons] at h
      rcases List.mem_cons.mp h with he | hm
      · exact absurd he hnx
      · have hk : 1 ≤ k := by
          by_contra hk0
          have : k = 0 := by omega
          subst this
          simp at hm
        rw [List.take_succ_cons,
          List.erase_cons_tail (by simpa using fun he => hnx (he.symm)),
          List.erase_cons_tail (by simpa using fun he => hnx (he.symm))]
        have := erase_take u k n hm
        rw [this]
        have hke : k + 1 - 1 = (k - 1) + 1 := by omega
        rw [hke, List.take_succ_cons]

/-- Helper: erasing an element that does not lie inside a prefix leaves
the prefix unchanged. -/
theorem erase_take_of_not_mem {α : Type} [DecidableEq α] :
    ∀ (t : List α) (k : Nat) (n : α), n ∉ t.take k →
      (t.erase n).take k = t.take k
  | [], k, n, _ => by simp
  | x :: u, 0, n, _ => by simp
  | x :: u, k + 1, n, h => by
    simp only [List.take_succ_cons, List.mem_cons, not_or] at h
    rw [List.erase_cons_tail (by simpa using fun he => h.1 (he.symm))]
    rw [List.take_succ_cons, List.take_succ_cons,
      erase_take_of_not_mem u k n h.2]

/-- Helper: one `mtfStep` on a prefix of a list is the prefix of the
`mtfStep`, when the stepped element lies inside the prefix. -/
theorem mtfStep_take (m : List String) (n : String) (C : Nat)
    (hC : 1 ≤ C) (hmem : n ∈ m.take C) :
    mtfStep (m.take C) n = (mtfStep m n).take C := by
  unfold mtfStep
  rw [erase_take m C n hmem]
  obtain ⟨C', hC'⟩ : ∃ C', C = C' + 1 := ⟨C - 1, by omega⟩
  subst hC'
  rw [List.take_succ_cons]
  simp

/-- Helper: `findIdx?` on a cons, with the start offset folded into a
`map`. -/
theorem findIdx?_cons_map {α : Type} (p : α → Bool) (a : α) (l : List α) :
    List.findIdx? p (a :: l) =
      if p a then some 0 else (List.findIdx? p l).map (fun i => i + 1) := by
  rw [List.findIdx?_cons]
  by_cases h : p a
  · simp [h]
  · simp only [h, Bool.false_eq_true, if_false]
    rw [show (0 + 1 : Nat) = 1 from rfl, List.findIdx?_start_succ]

/-- Helper: a cache hit (`findIdx?` finds the page name) moved to the
front is one `mtfStep` on the name list. -/
theorem map_fst_hit {β : Type} (d : String × β) :
    ∀ (l : List (String × β)) (n : String) (ci : Nat),
      l.findIdx? (fun c => c.1 = n) = some ci →
      (l.getD ci d :: l.eraseIdx ci).map Prod.fst =
        mtfStep (l.map Prod.fst) n
  | [], n, ci, h => by simp [List.findIdx?] at h
  | x :: t, n, ci, h => by
    rw [findIdx?_cons_map] at h
    by_cases hx : x.1 = n
    · rw [if_pos (by simpa using hx)] at h
      rw [Option.some_inj] at h
      subst h
      unfold mtfStep
      simp only [List.getD_cons_zero, List.eraseIdx_cons_zero,
        List.map_cons, hx, List.erase_cons_head]
    · rw [if_neg (by simpa using hx)] at h
      cases hf : t.findIdx? (fun c => c.1 = n) with
      | none => rw [hf] at h; cases h
      | some ci' =>
        rw [hf] at h
        rw [show (some ci').map (fun i => i + 1) = some (ci' + 1) from rfl,
          Option.some_inj] at h
        subst h
        have ih := map_fst_hit d t n ci' hf
        unfold mtfStep at ih
        rw [List.map_cons] at ih
        obtain ⟨h1, h2⟩ := List.cons_eq_cons.mp ih
        simp only [List.getD_cons_succ, List.eraseIdx_cons_succ,
          List.map_cons]
        unfold mtfStep
        rw [List.erase_cons_tail (by simpa using hx), h1, h2]

/-- Helper: `getLast?` expressed through `getD` at the last index. -/
theorem getLast?_eq_getD {α : Type} (l : List α) (d : α) (h : l ≠ []) :
    l.getLast? = some (l.getD (l.length - 1) d) := by
  have hlt : l.length - 1 < l.length := by
    cases l with
    | nil => exact absurd rfl h
    | cons a t => simp
  rw [List.getLast?_eq_getElem?, List.getElem?_eq_getElem hlt,
    List.getD_eq_getElem l d hlt]

/-- Helper: `get_page` described at the level of cache page names: a hit
is one move-to-front step; a miss below capacity prepends the new name; a
miss at capacity additionally flushes the least-recently-used (last) page
to backing storage and drops it. -/
theorem get_page_names {Addr V : Type} (s : PageMaster Addr V) (a : Addr)
    (hro : s.readonly = false) (hrel : reliableStore s)
    (hC : 1 ≤ s.cache_size) (hlen : s.cache.length ≤ s.cache_size) :
    ∃ p s', s.get_page a = .ok (p, s') ∧
      s'.pfx = s.pfx ∧ s'.readonly = s.readonly ∧
      s'.cache_size = s.cache_size ∧ s'.addrStr = s.addrStr ∧
      s'.addrToPage = s.addrToPage ∧
      ((s.addrToPage a ∈ s.cache.map Prod.fst ∧
        s'.cache.map Prod.fst =
          mtfStep (s.cache.map Prod.fst) (s.addrToPage a) ∧
        s'.storage = s.storage) ∨
      (s.addrToPage a ∉ s.cache.map Prod.fst ∧
        s.cache.length < s.cache_size ∧
        s'.cache.map Prod.fst =
          mtfStep (s.cache.map Prod.fst) (s.addrToPage a) ∧
        s'.storage = s.storage) ∨
      (s.addrToPage a ∉ s.cache.map Prod.fst ∧
        s.cache.length = s.cache_size ∧
        ∃ q qp, s.cache.getLast? = some (q, qp) ∧
          s'.cache.map Prod.fst =
            s.addrToPage a :: (s.cache.map Prod.fst).dropLast ∧
          s'.storage = fun path =>
            if path = s.fullPath q then .okPage qp else s.storage path)) := by
  cases hfind : s.cache.findIdx? (fun c => c.1 = s.addrToPage a) with
  | some ci =>
    have hmem : s.addrToPage a ∈ s.cache.map Prod.fst := by
      obtain ⟨hci, hidx⟩ := List.findIdx?_eq_some_iff_findIdx_eq.mp hfind
      have := @List.findIdx_getElem _ (fun c => decide (c.1 = s.addrToPage a))
        s.cache (hidx ▸ hci)
      simp only [hidx, decide_eq_true_eq] at this
      rw [← this]
      exact List.mem_map_of_mem Prod.fst (List.getElem_mem hci)
    simp only [PageMaster.get_page, hfind]
    exact ⟨_, _, rfl, rfl, rfl, rfl, rfl, rfl,
      Or.inl ⟨hmem, map_fst_hit ("", []) s.cache (s.addrToPage a) ci hfind,
        rfl⟩⟩
  | none =>
    have hnmem : s.addrToPage a ∉ s.cache.map Prod.fst := by
      rw [List.findIdx?_eq_none_iff] at hfind
      intro hmem
      obtain ⟨c, hc, hceq⟩ := List.mem_map.mp hmem
      have := hfind c hc
      simp [hceq] at this
    have herase : (s.cache.map Prod.fst).erase (s.addrToPage a) =
        s.cache.map Prod.fst := List.erase_of_not_mem hnmem
    cases hst : s.storage (s.fullPath (s.addrToPage a)) with
    | failLoad => exact absurd hst (hrel _)
    | absent =>
      simp only [PageMaster.get_page, hfind, PageMaster.load_new_page,
        PageMaster.load_file, hst, List.length_cons]
      by_cases hov : s.cache.length + 1 > s.cache_size
      · have hql : s.cache.length = s.cache_size := by omega
        have hne : s.cache ≠ [] := by
          intro h
          rw [h] at hql
          simp at hql
          omega
        rw [if_pos hov]
        simp only [PageMaster.save_single_page, PageMaster.save_file, hro,
          Bool.false_eq_true, if_false, List.length_cons]
        obtain ⟨n', hn'⟩ : ∃ n', s.cache_size = n' + 1 :=
          ⟨s.cache_size - 1, by omega⟩
        refine ⟨[], _, rfl, rfl, rfl, rfl, rfl, rfl, Or.inr (Or.inr
          ⟨hnmem, hql, (s.cache.getD (s.cache.length - 1) ("", [])).1,
            (s.cache.getD (s.cache.length - 1) ("", [])).2,
            getLast?_eq_getD s.cache ("", []) hne, ?_, ?_⟩)⟩
        · simp only [hn', List.take_succ_cons, List.map_cons,
            List.map_take]
          congr 1
          rw [List.dropLast_eq_take, List.length_map]
          congr 1
          omega
        · rw [show ((s.addrToPage a, ([] : Page V)) :: s.cache).getD
            (s.cache.length + 1 - 1) ("", []) =
            s.cache.getD (s.cache.length - 1) ("", []) from by
              have : s.cache.length + 1 - 1 = (s.cache.length - 1) + 1 := by
                omega
              rw [this, List.getD_cons_succ]]
          rfl
      · rw [if_neg hov]
        refine ⟨[], _, rfl, rfl, rfl, rfl, rfl, rfl, Or.inr (Or.inl
          ⟨hnmem, by omega, ?_, rfl⟩)⟩
        unfold mtfStep
        rw [herase]
        rfl
    | okPage pg =>
      simp only [PageMaster.get_page, hfind, PageMaster.load_new_page,
        PageMaster.load_file, hst, List.length_cons]
      by_cases hov : s.cache.length + 1 > s.cache_size
      · have hql : s.cache.length = s.cache_size := by omega
        have hne : s.cache ≠ [] := by
          intro h
          rw [h] at hql
          simp at hql
          omega
        rw [if_pos hov]
        simp only [PageMaster.save_single_page, PageMaster.save_file, hro,
          Bool.false_eq_true, if_false, List.length_cons]
        obtain ⟨n', hn'⟩ : ∃ n', s.cache_size = n' + 1 :=
          ⟨s.cache_size - 1, by omega⟩
        refine ⟨pg, _, rfl, rfl, rfl, rfl, rfl, rfl, Or.inr (Or.inr
          ⟨hnmem, hql, (s.cache.getD (s.cache.length - 1) ("", [])).1,
            (s.cache.getD (s.cache.length - 1) ("", [])).2,
            getLast?_eq_getD s.cache ("", []) hne, ?_, ?_⟩)⟩
        · simp only [hn', List.take_succ_cons, List.map_cons,
            List.map_take]
          congr 1
          rw [List.dropLast_eq_take, List.length_map]
          congr 1
          omega
        · rw [show ((s.addrToPage a, pg) :: s.cache).getD
            (s.cache.length + 1 - 1) ("", []) =
            s.cache.getD (s.cache.length - 1) ("", []) from by
              have : s.cache.length + 1 - 1 = (s.cache.length - 1) + 1 := by
                omega
              rw [this, List.getD_cons_succ]]
          rfl
      · rw [if_neg hov]
        refine ⟨pg, _, rfl, rfl, rfl, rfl, rfl, rfl, Or.inr (Or.inl
          ⟨hnmem, by omega, ?_, rfl⟩)⟩
        unfold mtfStep
        rw [herase]
        rfl

/-- Helper: `mutateFront` rewrites at most the front page's payload — page
names, storage and configuration are untouched. -/
theorem mutateFront_fields {Addr V : Type} (s : PageMaster Addr V)
    (pn : String) (pg : Page V) :
    (s.mutateFront pn pg).cache.map Prod.fst = s.cache.map Prod.fst ∧
    (s.mutateFront pn pg).storage = s.storage ∧
    (s.mutateFront pn pg).pfx = s.pfx ∧
    (s.mutateFront pn pg).readonly = s.readonly ∧
    (s.mutateFront pn pg).cache_size = s.cache_size ∧
    (s.mutateFront pn pg).addrStr = s.addrStr ∧
    (s.mutateFront pn pg).addrToPage = s.addrToPage ∧
    (s.mutateFront pn pg).cache.getLast?.map Prod.fst =
      s.cache.getLast?.map Prod.fst := by
  obtain ⟨pfx, ro, cache, cs, astr, apg, stor⟩ := s
  cases cache with
  | nil => simp [PageMaster.mutateFront]
  | cons c t =>
    obtain ⟨n0, p0⟩ := c
    by_cases hn : n0 = pn
    · subst hn
      simp only [PageMaster.mutateFront, if_pos rfl]
      refine ⟨by simp, rfl, rfl, rfl, rfl, rfl, rfl, ?_⟩
      cases t with
      | nil => simp
      | cons y u => simp [List.getLast?_cons_cons]
    · simp [PageMaster.mutateFront, hn]

/-- Helper: the property of one `get_value`/`set_value` operation on the
cache page names (the `mtfStep`/eviction trichotomy of `get_page_names`,
which both operations inherit since `set_value` only rewrites the front
page's payload). -/
theorem pmStep_names {Addr V : Type} (s : PageMaster Addr V)
    (op : PMOp Addr V) (hro : s.readonly = false)
    (hrel : reliableStore s) (hC : 1 ≤ s.cache_size)
    (hlen : s.cache.length ≤ s.cache_size) :
    (pmStep s op).pfx = s.pfx ∧ (pmStep s op).readonly = s.readonly ∧
    (pmStep s op).cache_size = s.cache_size ∧
    (pmStep s op).addrStr = s.addrStr ∧
    (pmStep s op).addrToPage = s.addrToPage ∧
    ((s.addrToPage op.addr ∈ s.cache.map Prod.fst ∧
      (pmStep s op).cache.map Prod.fst =
        mtfStep (s.cache.map Prod.fst) (s.addrToPage op.addr) ∧
      (pmStep s op).storage = s.storage) ∨
    (s.addrToPage op.addr ∉ s.cache.map Prod.fst ∧
      s.cache.length < s.cache_size ∧
      (pmStep s op).cache.map Prod.fst =
        mtfStep (s.cache.map Prod.fst) (s.addrToPage op.addr) ∧
      (pmStep s op).storage = s.storage) ∨
    (s.addrToPage op.addr ∉ s.cache.map Prod.fst ∧
      s.cache.length = s.cache_size ∧
      ∃ q qp, s.cache.getLast? = some (q, qp) ∧
        (pmStep s op).cache.map Prod.fst =
          s.addrToPage op.addr :: (s.cache.map Prod.fst).dropLast ∧
        (pmStep s op).storage = fun path =>
          if path = s.fullPath q then .okPage qp else s.storage path)) := by
  cases op with
  | getOp a k =>
    obtain ⟨p, s', hgp, hf1, hf2, hf3, hf4, hf5, hdisj⟩ :=
      get_page_names s a hro hrel hC hlen
    have hstep : pmStep s (.getOp a k) = s' := by
      simp only [pmStep, PageMaster.get_value, PageMaster.get_valueE, hgp]
    rw [hstep]
    exact ⟨hf1, hf2, hf3, hf4, hf5, hdisj⟩
  | setOp a k v =>
    obtain ⟨p, s', hgp, hf1, hf2, hf3, hf4, hf5, hdisj⟩ :=
      get_page_names s a hro hrel hC hlen
    have hstep : pmStep s (.setOp a k v) =
        s'.mutateFront (s.addrToPage a) (dsetA p (s.addr_key a k) v) := by
      simp only [pmStep, PageMaster.set_value, hro, Bool.false_eq_true,
        if_false, hgp]
    obtain ⟨hm1, hm2, hm3, hm4, hm5, hm6, hm7, _⟩ :=
      mutateFront_fields s' (s.addrToPage a) (dsetA p (s.addr_key a k) v)
    rw [hstep]
    refine ⟨hm3.trans hf1, hm4.trans hf2, hm5.trans hf3, hm6.trans hf4,
      hm7.trans hf5, ?_⟩
    rcases hdisj with ⟨ha, hb, hcc⟩ | ⟨ha, hb, hcc, hd⟩ | ⟨ha, hb, q, qp, hq, hcc, hd⟩
    · exact Or.inl ⟨ha, hm1.trans hb, hm2.trans hcc⟩
    · exact Or.inr (Or.inl ⟨ha, hb, hm1.trans hcc, hm2.trans hd⟩)
    · exact Or.inr (Or.inr ⟨ha, hb, q, qp, hq, hm1.trans hcc,
        hm2.trans hd⟩)

/-- Helper: the invariant of an operation run from a fresh store:
configuration preserved, storage stays reliable, and the cache page names
are exactly the capacity-length prefix of the move-to-front list of the
access history. -/
theorem pmRun_inv {Addr V : Type} (s0 : PageMaster Addr V)
    (hro : s0.readonly = false) (hrel : reliableStore s0)
    (hc0 : s0.cache = []) (hC : 1 ≤ s0.cache_size) :
    ∀ ops : List (PMOp Addr V),
      (pmRun s0 ops).pfx = s0.pfx ∧
      (pmRun s0 ops).readonly = false ∧
      (pmRun s0 ops).cache_size = s0.cache_size ∧
      (pmRun s0 ops).addrStr = s0.addrStr ∧
      (pmRun s0 ops).addrToPage = s0.addrToPage ∧
      reliableStore (pmRun s0 ops) ∧
      (pmRun s0 ops).cache.map Prod.fst =
        (mtf (opPages s0 ops)).take s0.cache_size := by
  intro ops
  induction ops using List.reverseRecOn with
  | nil =>
    refine ⟨rfl, hro, rfl, rfl, rfl, hrel, ?_⟩
    show List.map Prod.fst s0.cache = _
    rw [hc0]
    simp [opPages, mtf]
  | append_singleton pre op ih =>
    obtain ⟨ih1, ih2, ih3, ih4, ih5, ih6, ih7⟩ := ih
    have hrun : pmRun s0 (pre ++ [op]) = pmStep (pmRun s0 pre) op := by
      unfold pmRun
      rw [List.foldl_append]
      rfl
    have hlen : (pmRun s0 pre).cache.length ≤ (pmRun s0 pre).cache_size := by
      rw [ih3, ← List.length_map (pmRun s0 pre).cache Prod.fst, ih7]
      exact le_trans (List.length_take_le _ _) (le_refl _)
    obtain ⟨hs1, hs2, hs3, hs4, hs5, hdisj⟩ :=
      pmStep_names (pmRun s0 pre) op ih2 ih6 (by rw [ih3]; exact hC) hlen
    have hpage : (pmRun s0 pre).addrToPage op.addr =
        s0.addrToPage op.addr := by rw [ih5]
    have hist : opPages s0 (pre ++ [op]) =
        opPages s0 pre ++ [s0.addrToPage op.addr] := by
      unfold opPages
      rw [List.map_append]
      rfl
    have hmtf : mtf (opPages s0 (pre ++ [op])) =
        mtfStep (mtf (opPages s0 pre)) (s0.addrToPage op.addr) := by
      rw [hist, mtf_append]
    refine ⟨hrun ▸ hs1.trans ih1, hrun ▸ hs2.trans ih2,
      hrun ▸ hs3.trans ih3, hrun ▸ hs4.trans ih4, hrun ▸ hs5.trans ih5,
      ?_, ?_⟩
    · rw [hrun]
      rcases hdisj with ⟨_, _, hst⟩ | ⟨_, _, _, hst⟩ |
        ⟨_, _, q, qp, _, _, hst⟩
      · unfold reliableStore
        intro path
        rw [hst]
        exact ih6 path
      · unfold reliableStore
        intro path
        rw [hst]
        exact ih6 path
      · unfold reliableStore
        intro path
        rw [hst]
        show (if path = (pmRun s0 pre).fullPath q then StoreOutcome.okPage qp
          else (pmRun s0 pre).storage path) ≠ StoreOutcome.failLoad
        by_cases hp : path = (pmRun s0 pre).fullPath q
        · rw [if_pos hp]
          intro h
          cases h
        · rw [if_neg hp]
          exact ih6 path
    · rw [hrun, hmtf]
      have hlen' : (pmRun s0 pre).cache.length =
          ((mtf (opPages s0 pre)).take s0.cache_size).length := by
        rw [← ih7, List.length_map]
      rcases hdisj with ⟨hmem, hnames, _⟩ | ⟨hmem, hblen, hnames, _⟩ |
        ⟨hmem, hblen, q, qp, hq, hnames, _⟩
      · -- hit
        rw [hnames, hpage, ih7]
        exact mtfStep_take _ _ _ hC (ih7 ▸ hpage ▸ hmem)
      · -- miss below capacity
        rw [hnames, hpage, ih7]
        have h1 : (pmRun s0 pre).cache.length < s0.cache_size := by
          rw [← ih3]
          exact hblen
        have hmlen : (mtf (opPages s0 pre)).length < s0.cache_size := by
          by_contra hge
          push_neg at hge
          have h2 : ((mtf (opPages s0 pre)).take s0.cache_size).length =
              s0.cache_size := by
            rw [List.length_take]
            omega
          rw [h2] at hlen'
          omega
        have hmeq : (mtf (opPages s0 pre)).take s0.cache_size =
            mtf (opPages s0 pre) :=
          List.take_of_length_le (by omega)
        rw [hmeq]
        have hnm : s0.addrToPage op.addr ∉ mtf (opPages s0 pre) := by
          rw [← hmeq]
          exact fun hm => hmem (hpage ▸ ih7 ▸ hm)
        have : mtfStep (mtf (opPages s0 pre)) (s0.addrToPage op.addr) =
            s0.addrToPage op.addr :: mtf (opPages s0 pre) := by
          unfold mtfStep
          rw [List.erase_of_not_mem hnm]
        rw [this]
        refine (List.take_of_length_le ?_).symm
        simp only [List.length_cons]
        omega
      · -- miss at capacity: evict the last
        rw [hnames, hpage, ih7]
        have hblen' : (pmRun s0 pre).cache.length = s0.cache_size := by
          rw [← ih3]
          exact hblen
        have hnm : s0.addrToPage op.addr ∉
            (mtf (opPages s0 pre)).take s0.cache_size := by
          rw [← ih7]
          exact fun hm => hmem (hpage ▸ hm)
        unfold mtfStep
        obtain ⟨C', hC'⟩ : ∃ C', s0.cache_size = C' + 1 :=
          ⟨s0.cache_size - 1, by omega⟩
        conv_rhs => rw [hC', List.take_succ_cons]
        congr 1
        have hnm' : s0.addrToPage op.addr ∉
            (mtf (opPages s0 pre)).take C' := by
          intro hm
          refine hnm (@List.mem_of_mem_take _ C' _
            ((mtf (opPages s0 pre)).take s0.cache_size) ?_)
          rw [List.take_take, min_eq_left (by omega)]
          exact hm
        rw [erase_take_of_not_mem _ _ _ hnm']
        have hfull : ((mtf (opPages s0 pre)).take s0.cache_size).length =
            s0.cache_size := by
          rw [← hlen']
          rw [hblen']
        rw [List.dropLast_eq_take, hfull, List.take_take,
          min_eq_left (by omega)]
        congr 1
        omega

/-- Helper: `getLast?` commutes with `map`. -/
theorem getLast?_map {α β : Type} (f : α → β) :
    ∀ (l : List α), (l.map f).getLast? = l.getLast?.map f
  | [] => rfl
  | [a] => rfl
  | a :: b :: t => by
    rw [List.map_cons, List.map_cons, List.getLast?_cons_cons,
      List.getLast?_cons_cons, ← List.map_cons f b t]
    exact getLast?_map f (b :: t)

/-- Helper: the last element of a list is a member. -/
theorem mem_of_getLast? {α : Type} :
    ∀ {l : List α} {q : α}, l.getLast? = some q → q ∈ l
  | [], _, h => by cases h
  | [a], q, h => by
    rw [List.getLast?_singleton, Option.some_inj] at h
    subst h
    exact List.mem_singleton_self a
  | a :: b :: t, q, h => by
    rw [List.getLast?_cons_cons] at h
    exact List.mem_cons_of_mem a (mem_of_getLast? h)

/-- Helper: in a pairwise-related list, every element is related to the
last element (or is it). -/
theorem pairwise_getLast {α : Type} {R : α → α → Prop} :
    ∀ {l : List α} {q : α}, l.Pairwise R → l.getLast? = some q →
      ∀ r ∈ l, r = q ∨ R r q
  | [], q, _, hq, r, hr => by cases hr
  | [a], q, _, hq, r, hr => by
    rw [List.getLast?_singleton, Option.some_inj] at hq
    rw [List.mem_singleton] at hr
    exact Or.inl (hr.trans hq)
  | a :: b :: t, q, hp, hq, r, hr => by
    rw [List.getLast?_cons_cons] at hq
    rcases List.mem_cons.mp hr with he | hm
    · subst he
      exact Or.inr ((List.pairwise_cons.mp hp).1 q (mem_of_getLast? hq))
    · exact pairwise_getLast (List.pairwise_cons.mp hp).2 hq r hm

/-- C6: LRU cache behaviour of `PageMaster` under any sequence of
`get_value`/`set_value` operations against a writable store with reliable
backing storage, a positive capacity and an initially empty cache.
(1)-(3): after every operation the cache page names are exactly the
capacity-length prefix of the move-to-front list of the access history —
so the cache holds at most `cache_size` pages, each name at most once,
ordered most-recently-used first (pairwise by strictly more recent last
use).  (4): whenever an operation loads a page that is not resident while
the cache is full, exactly one page is evicted: the last (least recently
used among residents — its last use is at or below every resident's), and
the backing storage afterwards holds exactly its last in-memory state. -/
theorem c6_lru_eviction {Addr V : Type} (s0 : PageMaster Addr V)
    (ops : List (PMOp Addr V)) (hro : s0.readonly = false)
    (hrel : reliableStore s0) (hc0 : s0.cache = [])
    (hC : 1 ≤ s0.cache_size) :
    (pmRun s0 ops).cache.map Prod.fst =
      (mtf (opPages s0 ops)).take s0.cache_size ∧
    (pmRun s0 ops).cache.length ≤ s0.cache_size ∧
    ((pmRun s0 ops).cache.map Prod.fst).Nodup ∧
    ((pmRun s0 ops).cache.map Prod.fst).Pairwise
      (recencyLt (opPages s0 ops)) ∧
    (∀ pre op rest2, ops = pre ++ op :: rest2 →
      s0.addrToPage op.addr ∉ (pmRun s0 pre).cache.map Prod.fst →
      (pmRun s0 pre).cache.length = s0.cache_size →
      ∃ q qp, (pmRun s0 pre).cache.getLast? = some (q, qp) ∧
        (pmRun s0 (pre ++ [op])).cache.map Prod.fst =
          s0.addrToPage op.addr ::
            ((pmRun s0 pre).cache.map Prod.fst).dropLast ∧
        (pmRun s0 (pre ++ [op])).storage ((pmRun s0 pre).fullPath q) =
          .okPage qp ∧
        (∀ r ∈ (pmRun s0 pre).cache.map Prod.fst, ∀ iq ir,
          lastUse (opPages s0 pre) q = some iq →
          lastUse (opPages s0 pre) r = some ir → iq ≤ ir)) := by
  obtain ⟨hi1, hi2, hi3, hi4, hi5, hi6, hi7⟩ := pmRun_inv s0 hro hrel hc0 hC ops
  have hnodup : ((pmRun s0 ops).cache.map Prod.fst).Nodup := by
    rw [hi7]
    exact (mtf_nodup _).sublist (List.take_sublist _ _)
  refine ⟨hi7, ?_, hnodup, ?_, ?_⟩
  · rw [← List.length_map (pmRun s0 ops).cache Prod.fst, hi7]
    exact le_trans (List.length_take_le _ _) (le_refl _)
  · rw [hi7]
    exact (mtf_pairwise _).sublist (List.take_sublist _ _)
  · intro pre op rest2 hops hnm hfull
    obtain ⟨hp1, hp2, hp3, hp4, hp5, hp6, hp7⟩ :=
      pmRun_inv s0 hro hrel hc0 hC pre
    have hrun : pmRun s0 (pre ++ [op]) = pmStep (pmRun s0 pre) op := by
      unfold pmRun
      rw [List.foldl_append]
      rfl
    have hlen : (pmRun s0 pre).cache.length ≤ (pmRun s0 pre).cache_size := by
      rw [hp3, hfull]
    obtain ⟨_, _, _, _, _, hdisj⟩ :=
      pmStep_names (pmRun s0 pre) op hp2 hp6 (by rw [hp3]; exact hC) hlen
    have hpage : (pmRun s0 pre).addrToPage op.addr =
        s0.addrToPage op.addr := by rw [hp5]
    rcases hdisj with ⟨hmem, _, _⟩ | ⟨_, hblen, _, _⟩ |
      ⟨_, _, q, qp, hq, hnames, hstor⟩
    · exact absurd (hpage ▸ hmem) hnm
    · rw [hp3, hfull] at hblen
      omega
    · refine ⟨q, qp, hq, ?_, ?_, ?_⟩
      · rw [hrun, hnames, hpage]
      · rw [hrun, hstor]
        show (if (pmRun s0 pre).fullPath q = (pmRun s0 pre).fullPath q
          then StoreOutcome.okPage qp
          else (pmRun s0 pre).storage ((pmRun s0 pre).fullPath q)) =
          StoreOutcome.okPage qp
        rw [if_pos rfl]
      · have hqlast : ((pmRun s0 pre).cache.map Prod.fst).getLast? =
            some q := by
          rw [getLast?_map, hq]
          rfl
        have hpw : ((pmRun s0 pre).cache.map Prod.fst).Pairwise
            (recencyLt (opPages s0 pre)) := by
          rw [hp7]
          exact (mtf_pairwise _).sublist (List.take_sublist _ _)
        intro r hr iq ir hiq hir
        rcases pairwise_getLast hpw hqlast r hr with he | hrel2
        · subst he
          rw [hiq] at hir
          rw [Option.some_inj] at hir
          omega
        · exact le_of_lt (hrel2 ir iq hir hiq)

/-- Witness for C6 at a concrete input: capacity-1 store, write to the
January page, then read the February page — the January page is evicted,
its written state lands in backing storage, and the cache is the
one-element MRU prefix. -/
theorem c6_lru_eviction_witness :
    (pmRun c6Master c6Ops).cache.map Prod.fst =
      (mtf (opPages c6Master c6Ops)).take c6Master.cache_size ∧
    ∃ q qp,
      (pmRun c6Master [.setOp (CellAddr.mk 20110101 "c") "k"
        (.intV 7)]).cache.getLast? = some (q, qp) ∧
      (pmRun c6Master c6Ops).storage
        ((pmRun c6Master [.setOp (CellAddr.mk 20110101 "c") "k"
          (.intV 7)]).fullPath q) = .okPage qp := by
  have h := c6_lru_eviction c6Master c6Ops (by rfl)
    (fun p => by
      show StoreOutcome.absent ≠ StoreOutcome.failLoad
      intro hcon
      cases hcon)
    (by rfl) (by decide)
  refine ⟨h.1, ?_⟩
  obtain ⟨q, qp, hq, _, hstor, _⟩ := h.2.2.2.2
    [.setOp (CellAddr.mk 20110101 "c") "k" (.intV 7)]
    (.getOp (CellAddr.mk 20110202 "c") "k") [] (by rfl)
    (by decide) (by decide)
  exact ⟨q, qp, hq, hstor⟩


/-- Color of a node after `set_start`. -/
theorem set_start_color (s : TopoState) (v u : String) :
    (set_start s v).color u = if u = v then Color.gray else s.color u := rfl

/-- Finish times are untouched by `set_start`. -/
theorem set_start_finishT (s : TopoState) (v u : String) :
    (set_start s v).finishT u = s.finishT u := rfl

/-- `set_start` advances the clock by one. -/
theorem set_start_time (s : TopoState) (v : String) :
    (set_start s v).time = s.time + 1 := rfl

/-- Color of a node after `set_finish`. -/
theorem set_finish_color (s : TopoState) (v u : String) :
    (set_finish s v).color u = if u = v then Color.black else s.color u := rfl

/-- Finish time of a node after `set_finish`. -/
theorem set_finish_finishT (s : TopoState) (v u : String) :
    (set_finish s v).finishT u =
      if u = v then some (s.time + 1) else s.finishT u := rfl

/-- `set_finish` advances the clock by one. -/
theorem set_finish_time (s : TopoState) (v : String) :
    (set_finish s v).time = s.time + 1 := rfl

/-- Unfolding of `dfsF` at positive fuel, with the children loop written
via `dfsStep`. -/
theorem dfsF_succ (g : Graph) (fuel : Nat) (s : TopoState) (v : String) :
    dfsF g (fuel + 1) s v =
      if s.color v = Color.gray then Except.error TopoErr.cycle
      else
        match (childrenOf g v).foldl (dfsStep g fuel)
            (Except.ok (set_start s v)) with
        | .error e => Except.error e
        | .ok s1 => Except.ok (set_finish s1 v) := rfl

/-- `topLoop` on the empty list returns the state unchanged. -/
theorem topLoop_nil (g : Graph) (fuel : Nat) (s : TopoState) :
    topLoop g fuel [] s = Except.ok s := rfl

/-- Unfolding of `topLoop` on a nonempty list. -/
theorem topLoop_cons (g : Graph) (fuel : Nat) (v : String)
    (rest : List String) (s : TopoState) :
    topLoop g fuel (v :: rest) s =
      if s.color v = Color.white then
        match dfsF g fuel s v with
        | .error e => Except.error e
        | .ok s1 => topLoop g fuel rest s1
      else topLoop g fuel rest s := rfl

/-- An error accumulator propagates through the children fold. -/
theorem foldl_dfsStep_error (g : Graph) (fuel : Nat) (e : TopoErr) :
    ∀ deps : List String,
      deps.foldl (dfsStep g fuel) (Except.error e) = Except.error e
  | [] => rfl
  | d :: rest => by
    simp only [List.foldl_cons]
    rw [show dfsStep g fuel (Except.error e) d = Except.error e from rfl]
    exact foldl_dfsStep_error g fuel e rest

/-- A name is a key of the graph dict iff it is among the keys list. -/
theorem mem_gkeys_iff_isKey (g : Graph) (v : String) :
    isKey g v = true ↔ v ∈ gkeys g := by
  induction g with
  | nil => simp [isKey, lookupA, gkeys]
  | cons p t ih =>
    obtain ⟨a, b⟩ := p
    by_cases h : a = v
    · subst h
      simp [isKey, lookupA, gkeys]
    · have h2 : ¬ v = a := fun hh => h hh.symm
      rw [show isKey ((a, b) :: t) v = isKey t v by
        simp [isKey, lookupA, if_neg h]]
      rw [ih]
      simp [gkeys, h2]

/-- The white count never exceeds the number of keys. -/
theorem whiteCount_le_keys (g : Graph) (s : TopoState) :
    whiteCount g s ≤ (gkeys g).length :=
  List.length_filter_le _ _

/-- The white count is monotone under pointwise shrinking of the white
set. -/
theorem whiteCount_mono {g : Graph} {s s1 : TopoState}
    (h : ∀ u, s1.color u = Color.white → s.color u = Color.white) :
    whiteCount g s1 ≤ whiteCount g s := by
  unfold whiteCount
  exact (List.monotone_filter_right _ (fun a ha => by
    simp only [decide_eq_true_eq] at ha ⊢
    exact h a ha)).length_le

/-- Graying a white key strictly decreases the white count. -/
theorem whiteCount_set_start_lt {g : Graph} {s : TopoState} {v : String}
    (hv : v ∈ gkeys g) (hw : s.color v = Color.white) :
    whiteCount g (set_start s v) < whiteCount g s := by
  have hsub : ((gkeys g).filter
        (fun k => decide ((set_start s v).color k = Color.white))).Sublist
      ((gkeys g).filter (fun k => decide (s.color k = Color.white))) := by
    refine List.monotone_filter_right _ (fun a ha => ?_)
    simp only [decide_eq_true_eq] at ha ⊢
    rw [set_start_color] at ha
    by_cases hav : a = v
    · rw [if_pos hav] at ha
      simp at ha
    · rwa [if_neg hav] at ha
  refine Nat.lt_of_le_of_ne hsub.length_le (fun heq => ?_)
  have heql := hsub.eq_of_length heq
  have hvin : v ∈ (gkeys g).filter (fun k => decide (s.color k = Color.white)) := by
    simp only [List.mem_filter, decide_eq_true_eq]
    exact ⟨hv, hw⟩
  rw [← heql] at hvin
  have hvw := (List.mem_filter.mp hvin).2
  simp only [decide_eq_true_eq, set_start_color] at hvw
  simp at hvw

/-- The initial all-white state satisfies the DFS invariant. -/
theorem topoInv_init (g : Graph) : TopoInv g initTopoState := by
  refine ⟨?_, ?_, ?_, ?_, ?_⟩
  · intro u hu
    exact absurd rfl hu
  · intro u hu
    exact absurd hu (by simp [initTopoState])
  · intro u fu hfu
    simp [initTopoState] at hfu
  · intro u w fu fw _ hfu _
    simp [initTopoState] at hfu
  · intro u hu
    exact absurd rfl hu

/-- `set_start` on a white key preserves the DFS invariant. -/
theorem topoInv_set_start {g : Graph} {s : TopoState} {v : String}
    (hInv : TopoInv g s) (hkey : isKey g v = true)
    (hw : s.color v = Color.white) : TopoInv g (set_start s v) := by
  obtain ⟨i1, i2, i3, i4, i5⟩ := hInv
  refine ⟨?_, ?_, ?_, ?_, ?_⟩
  · intro u hu
    rw [set_start_color] at hu
    by_cases huv : u = v
    · subst huv
      exact hkey
    · rw [if_neg huv] at hu
      exact i1 u hu
  · intro u hu
    rw [set_start_color] at hu
    by_cases huv : u = v
    · rw [if_pos huv] at hu
      simp at hu
    · rw [if_neg huv] at hu
      obtain ⟨fu, hfu, hle, hcl⟩ := i2 u hu
      refine ⟨fu, ?_, ?_, ?_⟩
      · rw [set_start_finishT]
        exact hfu
      · rw [set_start_time]
        omega
      · intro w hw2
        obtain ⟨hwb, fw, hfw, hlt⟩ := hcl w hw2
        have hwv : ¬ w = v := by
          intro heq
          rw [heq, hw] at hwb
          simp at hwb
        refine ⟨?_, fw, ?_, hlt⟩
        · rw [set_start_color, if_neg hwv]
          exact hwb
        · rw [set_start_finishT]
          exact hfw
  · intro u fu hfu
    rw [set_start_finishT] at hfu
    rw [set_start_time]
    have := i3 u fu hfu
    omega
  · intro u w fu fw huw hfu hfw
    rw [set_start_finishT] at hfu hfw
    exact i4 u w fu fw huw hfu hfw
  · intro u hu
    rw [set_start_finishT] at hu
    have hb := i5 u hu
    rw [set_start_color]
    by_cases huv : u = v
    · subst huv
      rw [hw] at hb
      simp at hb
    · rw [if_neg huv]
      exact hb

/-- `set_finish` on a gray key whose key-children are all black preserves
the DFS invariant. -/
theorem topoInv_set_finish {g : Graph} {s : TopoState} {v : String}
    {cs : List String}
    (hInv : TopoInv g s) (hv : lookupA g v = some cs)
    (hgray : s.color v = Color.gray)
    (hchild : ∀ w, EdgeG g v w → s.color w = Color.black) :
    TopoInv g (set_finish s v) := by
  obtain ⟨i1, i2, i3, i4, i5⟩ := hInv
  have hkey : isKey g v = true := by
    unfold isKey
    rw [hv]
    rfl
  refine ⟨?_, ?_, ?_, ?_, ?_⟩
  · intro u hu
    by_cases huv : u = v
    · subst huv
      exact hkey
    · rw [set_finish_color, if_neg huv] at hu
      exact i1 u hu
  · intro u hu
    rw [set_finish_color] at hu
    by_cases huv : u = v
    · subst huv
      refine ⟨s.time + 1, ?_, ?_, ?_⟩
      · rw [set_finish_finishT, if_pos rfl]
      · rw [set_finish_time]
      · intro w hw2
        have hwb : s.color w = Color.black := hchild w hw2
        have hwv : ¬ w = u := by
          intro heq
          rw [heq, hgray] at hwb
          simp at hwb
        obtain ⟨fw, hfw, hfwle, _⟩ := i2 w hwb
        refine ⟨?_, fw, ?_, ?_⟩
        · rw [set_finish_color, if_neg hwv]
          exact hwb
        · rw [set_finish_finishT, if_neg hwv]
          exact hfw
        · omega
    · rw [if_neg huv] at hu
      obtain ⟨fu, hfu, hle, hcl⟩ := i2 u hu
      refine ⟨fu, ?_, ?_, ?_⟩
      · rw [set_finish_finishT, if_neg huv]
        exact hfu
      · rw [set_finish_time]
        omega
      · intro w hw2
        obtain ⟨hwb, fw, hfw, hlt⟩ := hcl w hw2
        have hwv : ¬ w = v := by
          intro heq
          rw [heq, hgray] at hwb
          simp at hwb
        refine ⟨?_, fw, ?_, hlt⟩
        · rw [set_finish_color, if_neg hwv]
          exact hwb
        · rw [set_finish_finishT, if_neg hwv]
          exact hfw
  · intro u fu hfu
    rw [set_finish_finishT] at hfu
    rw [set_finish_time]
    by_cases huv : u = v
    · rw [if_pos huv] at hfu
      injection hfu with hfu
      omega
    · rw [if_neg huv] at hfu
      have := i3 u fu hfu
      omega
  · intro u w fu fw huw hfu hfw
    rw [set_finish_finishT] at hfu hfw
    by_cases huv : u = v
    · rw [if_pos huv] at hfu
      injection hfu with hfu
      have hwv : ¬ w = v := fun heq => huw (huv.trans heq.symm)
      rw [if_neg hwv] at hfw
      have := i3 w fw hfw
      omega
    · rw [if_neg huv] at hfu
      by_cases hwv : w = v
      · rw [if_pos hwv] at hfw
        injection hfw with hfw
        have := i3 u fu hfu
        omega
      · rw [if_neg hwv] at hfw
        exact i4 u w fu fw huw hfu hfw
  · intro u hu
    rw [set_finish_finishT] at hu
    rw [set_finish_color]
    by_cases huv : u = v
    · rw [if_pos huv]
    · rw [if_neg huv] at hu
      rw [if_neg huv]
      exact i5 u hu

/-- Specification of the children fold of `dfs`: called under the gray
parent `v` with all grays reaching `v` and enough fuel, it never runs out
of fuel, reports a cycle only on genuinely cyclic graphs, and on success
preserves the invariant, blacks, the gray set and finish times, advances
the clock, shrinks the white count, and leaves every key-child black. -/
theorem dfs_fold_spec (g : Graph) (fuel : Nat) (IH : DfsGood g fuel)
    (v : String) (cs : List String) (hv : lookupA g v = some cs) :
    ∀ (deps : List String) (s0 : TopoState),
      (∀ d ∈ deps, d ∈ cs) → TopoInv g s0 →
      s0.color v = Color.gray →
      (∀ u, s0.color u = Color.gray → Relation.ReflTransGen (EdgeG g) u v) →
      whiteCount g s0 + 1 ≤ fuel →
      deps.foldl (dfsStep g fuel) (Except.ok s0) ≠ .error .fuelOut ∧
      (deps.foldl (dfsStep g fuel) (Except.ok s0) = .error .cycle →
        ∃ w, Relation.TransGen (EdgeG g) w w) ∧
      (∀ s1, deps.foldl (dfsStep g fuel) (Except.ok s0) = .ok s1 →
        TopoInv g s1 ∧
        (∀ u, s0.color u = Color.black → s1.color u = Color.black) ∧
        (∀ u, s1.color u = Color.gray ↔ s0.color u = Color.gray) ∧
        (∀ u fu, s0.finishT u = some fu → s1.finishT u = some fu) ∧
        s0.time ≤ s1.time ∧
        whiteCount g s1 ≤ whiteCount g s0 ∧
        (∀ d ∈ deps, isKey g d = true → s1.color d = Color.black)) := by
  intro deps
  induction deps with
  | nil =>
    intro s0 hsub hInv hgrayv hreach hbud
    simp only [List.foldl_nil]
    refine ⟨by simp, by simp, ?_⟩
    intro s1 h1
    injection h1 with h1
    subst h1
    exact ⟨hInv, fun u h => h, fun u => Iff.rfl, fun u fu h => h,
      le_refl _, le_refl _, by simp⟩
  | cons d rest ih =>
    intro s0 hsub hInv hgrayv hreach hbud
    simp only [List.foldl_cons]
    by_cases hkd : isKey g d = true
    · by_cases hbd : s0.color d = Color.black
      · have hstep : dfsStep g fuel (Except.ok s0) d = Except.ok s0 := by
          simp [dfsStep, hkd, hbd]
        rw [hstep]
        obtain ⟨h1, h2, h3⟩ := ih s0
          (fun x hx => hsub x (List.mem_cons_of_mem d hx)) hInv hgrayv
          hreach hbud
        refine ⟨h1, h2, ?_⟩
        intro s1 hs1
        obtain ⟨j1, j2, j3, j4, j5, j6, j7⟩ := h3 s1 hs1
        refine ⟨j1, j2, j3, j4, j5, j6, ?_⟩
        intro x hx hkx
        rcases List.mem_cons.mp hx with hxd | hxr
        · subst hxd
          exact j2 x hbd
        · exact j7 x hxr hkx
      · have hstep : dfsStep g fuel (Except.ok s0) d = dfsF g fuel s0 d := by
          simp [dfsStep, hkd, hbd]
        have hdge : EdgeG g v d :=
          ⟨cs, hv, hsub d (List.mem_cons_self d rest), hkd⟩
        rcases hcd : s0.color d with _ | _ | _
        · -- white child: recursive DFS call
          have hreach2 : ∀ u, s0.color u = Color.gray →
              Relation.ReflTransGen (EdgeG g) u d :=
            fun u hu => (hreach u hu).tail hdge
          obtain ⟨g1, g2, g3⟩ := IH s0 d hInv hkd hcd hreach2 hbud
          rcases hres : dfsF g fuel s0 d with e | s1
          · cases e
            · rw [hstep, hres, foldl_dfsStep_error]
              refine ⟨by simp, fun _ => g2 hres, ?_⟩
              intro s1 hcon
              exact absurd hcon (by simp)
            · exact absurd hres g1
          · obtain ⟨k1, k2, k3, k4, k5, k6, k7⟩ := g3 s1 hres
            rw [hstep, hres]
            have hgrayv1 : s1.color v = Color.gray := (k4 v).mpr hgrayv
            have hreach1 : ∀ u, s1.color u = Color.gray →
                Relation.ReflTransGen (EdgeG g) u v :=
              fun u hu => hreach u ((k4 u).mp hu)
            obtain ⟨h1, h2, h3⟩ := ih s1
              (fun x hx => hsub x (List.mem_cons_of_mem d hx)) k1 hgrayv1
              hreach1 (le_trans (Nat.add_le_add_right k7 1) hbud)
            refine ⟨h1, h2, ?_⟩
            intro s2 hs2
            obtain ⟨j1, j2, j3, j4, j5, j6, j7⟩ := h3 s2 hs2
            refine ⟨j1, fun u hu => j2 u (k3 u hu),
              fun u => (j3 u).trans (k4 u),
              fun u fu hfu => j4 u fu (k5 u fu hfu),
              le_trans k6 j5, le_trans j6 k7, ?_⟩
            intro x hx hkx
            rcases List.mem_cons.mp hx with hxd | hxr
            · subst hxd
              exact j2 x k2
            · exact j7 x hxr hkx
        · -- gray child: immediate cycle
          obtain ⟨f2, hf2⟩ : ∃ f2, fuel = f2 + 1 := ⟨fuel - 1, by omega⟩
          have hres : dfsF g fuel s0 d = Except.error TopoErr.cycle := by
            rw [hf2]
            simp [dfsF, hcd]
          rw [hstep, hres, foldl_dfsStep_error]
          refine ⟨by simp, ?_, ?_⟩
          · intro _
            exact ⟨d, Relation.TransGen.tail' (hreach d hcd) hdge⟩
          · intro s1 hcon
            exact absurd hcon (by simp)
        · exact absurd hcd hbd
    · have hstep : dfsStep g fuel (Except.ok s0) d = Except.ok s0 := by
        simp [dfsStep, hkd]
      rw [hstep]
      obtain ⟨h1, h2, h3⟩ := ih s0
        (fun x hx => hsub x (List.mem_cons_of_mem d hx)) hInv hgrayv
        hreach hbud
      refine ⟨h1, h2, ?_⟩
      intro s1 hs1
      obtain ⟨j1, j2, j3, j4, j5, j6, j7⟩ := h3 s1 hs1
      refine ⟨j1, j2, j3, j4, j5, j6, ?_⟩
      intro x hx hkx
      rcases List.mem_cons.mp hx with hxd | hxr
      · subst hxd
        exact absurd hkx hkd
      · exact j7 x hxr hkx

/-- Every fuel level satisfies the `dfs` specification. -/
theorem dfs_spec (g : Graph) : ∀ fuel, DfsGood g fuel := by
  intro fuel
  induction fuel with
  | zero =>
    intro s v hInv hkey hw hreach hbud
    exact absurd hbud (by omega)
  | succ fuel ihf =>
    intro s v hInv hkey hw hreach hbud
    have hng : ¬ s.color v = Color.gray := by
      rw [hw]
      simp
    obtain ⟨cs, hv⟩ := Option.isSome_iff_exists.mp hkey
    have hch : childrenOf g v = cs := by
      unfold childrenOf
      rw [hv]
      rfl
    have hvmem : v ∈ gkeys g := (mem_gkeys_iff_isKey g v).mp hkey
    have hdrop := whiteCount_set_start_lt hvmem hw
    have hbud2 : whiteCount g (set_start s v) + 1 ≤ fuel := by omega
    have hInv1 : TopoInv g (set_start s v) := topoInv_set_start hInv hkey hw
    have hgray1 : (set_start s v).color v = Color.gray := by
      rw [set_start_color]
      exact if_pos rfl
    have hreach1 : ∀ u, (set_start s v).color u = Color.gray →
        Relation.ReflTransGen (EdgeG g) u v := by
      intro u hu
      rw [set_start_color] at hu
      by_cases huv : u = v
      · subst huv
        exact Relation.ReflTransGen.refl
      · rw [if_neg huv] at hu
        exact hreach u hu
    obtain ⟨F1, F2, F3⟩ := dfs_fold_spec g fuel ihf v cs hv cs
      (set_start s v) (fun d hd => hd) hInv1 hgray1 hreach1 hbud2
    rcases hfold : cs.foldl (dfsStep g fuel) (Except.ok (set_start s v))
      with e | s1
    · have hdf : dfsF g (fuel + 1) s v = Except.error e := by
        rw [dfsF_succ, if_neg hng, hch, hfold]
      cases e
      · refine ⟨?_, fun _ => F2 hfold, ?_⟩
        · rw [hdf]
          simp
        · intro s2 hcon
          rw [hdf] at hcon
          exact absurd hcon (by simp)
      · exact absurd hfold F1
    · obtain ⟨K1, K2, K3, K4, K5, K6, K7⟩ := F3 s1 hfold
      have hdf : dfsF g (fuel + 1) s v = Except.ok (set_finish s1 v) := by
        rw [dfsF_succ, if_neg hng, hch, hfold]
      refine ⟨by rw [hdf]; simp, ?_, ?_⟩
      · intro hcon
        rw [hdf] at hcon
        exact absurd hcon (by simp)
      · intro s2 h2
        rw [hdf] at h2
        injection h2 with h2
        subst h2
        have hgray1v : s1.color v = Color.gray := (K3 v).mpr hgray1
        have hchild : ∀ w, EdgeG g v w → s1.color w = Color.black := by
          intro w hw2
          obtain ⟨cs2, hv2, hwc, hkw⟩ := hw2
          rw [hv] at hv2
          injection hv2 with hv2
          subst hv2
          exact K7 w hwc hkw
        refine ⟨topoInv_set_finish K1 hv hgray1v hchild, ?_, ?_, ?_, ?_, ?_, ?_⟩
        · rw [set_finish_color]
          exact if_pos rfl
        · intro u hu
          have huv : ¬ u = v := by
            intro heq
            rw [heq, hw] at hu
            simp at hu
          rw [set_finish_color, if_neg huv]
          refine K2 u ?_
          rw [set_start_color, if_neg huv]
          exact hu
        · intro u
          rw [set_finish_color]
          by_cases huv : u = v
          · rw [if_pos huv]
            subst huv
            constructor
            · intro hcon
              simp at hcon
            · intro hcon
              rw [hw] at hcon
              simp at hcon
          · rw [if_neg huv]
            rw [K3 u]
            rw [set_start_color, if_neg huv]
        · intro u fu hfu
          have huv : ¬ u = v := by
            intro heq
            subst heq
            have hb := hInv.2.2.2.2 u (by rw [hfu]; simp)
            rw [hw] at hb
            simp at hb
          rw [set_finish_finishT, if_neg huv]
          refine K4 u fu ?_
          rw [set_start_finishT]
          exact hfu
        · rw [set_finish_time]
          have hK5 := K5
          rw [set_start_time] at hK5
          omega
        · refine le_trans (whiteCount_mono ?_)
            (le_trans K6 (le_of_lt hdrop))
          intro u hu
          rw [set_finish_color] at hu
          by_cases huv : u = v
          · rw [if_pos huv] at hu
            simp at hu
          · rwa [if_neg huv] at hu

/-- Specification of the key loop of `topological`: starting gray-free with
enough fuel it never exhausts fuel, reports a cycle only on cyclic graphs,
and on success ends gray-free with every listed key black. -/
theorem topLoop_spec (g : Graph) (fuel : Nat) (hDfs : DfsGood g fuel) :
    ∀ (vs : List String) (s : TopoState),
      (∀ x ∈ vs, x ∈ gkeys g) → TopoInv g s →
      (∀ u, s.color u ≠ Color.gray) →
      whiteCount g s + 1 ≤ fuel →
      topLoop g fuel vs s ≠ Except.error TopoErr.fuelOut ∧
      (topLoop g fuel vs s = Except.error TopoErr.cycle →
        ∃ w, Relation.TransGen (EdgeG g) w w) ∧
      (∀ s1, topLoop g fuel vs s = Except.ok s1 →
        TopoInv g s1 ∧ (∀ u, s1.color u ≠ Color.gray) ∧
        (∀ u, s.color u = Color.black → s1.color u = Color.black) ∧
        (∀ x ∈ vs, s1.color x = Color.black))
  | [], s => by
    intro hmem hInv hng hbud
    rw [topLoop_nil]
    refine ⟨by simp, by simp, ?_⟩
    intro s1 h
    injection h with h
    subst h
    exact ⟨hInv, hng, fun u h => h, by simp⟩
  | v :: rest, s => by
    intro hmem hInv hng hbud
    have hvk : isKey g v = true :=
      (mem_gkeys_iff_isKey g v).mpr (hmem v (List.mem_cons_self v rest))
    have hrest : ∀ x ∈ rest, x ∈ gkeys g :=
      fun x hx => hmem x (List.mem_cons_of_mem v hx)
    by_cases hwv : s.color v = Color.white
    · obtain ⟨d1, d2, d3⟩ := hDfs s v hInv hvk hwv
        (fun u hu => absurd hu (hng u)) hbud
      rcases hres : dfsF g fuel s v with e | s1
      · have hunf : topLoop g fuel (v :: rest) s = Except.error e := by
          rw [topLoop_cons, if_pos hwv, hres]
        cases e
        · refine ⟨?_, fun _ => d2 hres, ?_⟩
          · rw [hunf]
            simp
          · intro s1 hcon
            rw [hunf] at hcon
            exact absurd hcon (by simp)
        · exact absurd hres d1
      · have hunf : topLoop g fuel (v :: rest) s = topLoop g fuel rest s1 := by
          rw [topLoop_cons, if_pos hwv, hres]
        obtain ⟨e1, e2, e3, e4, e5, e6, e7⟩ := d3 s1 hres
        have hng1 : ∀ u, s1.color u ≠ Color.gray :=
          fun u hu => hng u ((e4 u).mp hu)
        obtain ⟨r1, r2, r3⟩ := topLoop_spec g fuel hDfs rest s1 hrest e1 hng1
          (le_trans (Nat.add_le_add_right e7 1) hbud)
        rw [hunf]
        refine ⟨r1, r2, ?_⟩
        intro s2 h
        obtain ⟨q1, q2, q3, q4⟩ := r3 s2 h
        refine ⟨q1, q2, fun u hu => q3 u (e3 u hu), ?_⟩
        intro x hx
        rcases List.mem_cons.mp hx with hxv | hxr
        · subst hxv
          exact q3 x e2
        · exact q4 x hxr
    · have hunf : topLoop g fuel (v :: rest) s = topLoop g fuel rest s := by
        rw [topLoop_cons, if_neg hwv]
      have hbv : s.color v = Color.black := by
        rcases hc : s.color v with _ | _ | _
        · exact absurd hc hwv
        · exact absurd hc (hng v)
        · rfl
      obtain ⟨r1, r2, r3⟩ := topLoop_spec g fuel hDfs rest s hrest hInv hng hbud
      rw [hunf]
      refine ⟨r1, r2, ?_⟩
      intro s1 h
      obtain ⟨q1, q2, q3, q4⟩ := r3 s1 h
      refine ⟨q1, q2, q3, ?_⟩
      intro x hx
      rcases List.mem_cons.mp hx with hxv | hxr
      · subst hxv
        exact q3 x hbv
      · exact q4 x hxr

/-- In a list of (name, finish) pairs sorted by strictly descending finish
values of a finish function, a name with the larger finish indexes earlier
than one with a smaller finish. -/
theorem sorted_fin_index_lt {fin : String → Nat} {l : List (String × Nat)}
    (hform : ∀ p ∈ l, p = (p.1, fin p.1))
    (hs : l.Pairwise (fun a b => b.2 ≤ a.2))
    {u v : String}
    (hu : u ∈ l.map (fun p => p.1)) (hv : v ∈ l.map (fun p => p.1))
    (hlt : fin v < fin u) :
    (l.map (fun p => p.1)).indexOf u < (l.map (fun p => p.1)).indexOf v := by
  have hlen : (l.map (fun p => p.1)).length = l.length := List.length_map _ _
  have hiu : (l.map (fun p => p.1)).indexOf u < (l.map (fun p => p.1)).length :=
    List.indexOf_lt_length.mpr hu
  have hiv : (l.map (fun p => p.1)).indexOf v < (l.map (fun p => p.1)).length :=
    List.indexOf_lt_length.mpr hv
  have hgu : (l.map (fun p => p.1))[(l.map (fun p => p.1)).indexOf u] = u :=
    List.getElem_indexOf hiu
  have hgv : (l.map (fun p => p.1))[(l.map (fun p => p.1)).indexOf v] = v :=
    List.getElem_indexOf hiv
  have hil : (l.map (fun p => p.1)).indexOf u < l.length := by
    rw [← hlen]
    exact hiu
  have hjl : (l.map (fun p => p.1)).indexOf v < l.length := by
    rw [← hlen]
    exact hiv
  have h1 : (l[(l.map (fun p => p.1)).indexOf u]).1 = u := by
    have hm : (l.map (fun p => p.1))[(l.map (fun p => p.1)).indexOf u] =
        (l[(l.map (fun p => p.1)).indexOf u]).1 := List.getElem_map _
    exact hm.symm.trans hgu
  have h2 : (l[(l.map (fun p => p.1)).indexOf v]).1 = v := by
    have hm : (l.map (fun p => p.1))[(l.map (fun p => p.1)).indexOf v] =
        (l[(l.map (fun p => p.1)).indexOf v]).1 := List.getElem_map _
    exact hm.symm.trans hgv
  have hform1 := hform _ (List.getElem_mem hil)
  have hform2 := hform _ (List.getElem_mem hjl)
  rw [h1] at hform1
  rw [h2] at hform2
  rcases lt_trichotomy ((l.map (fun p => p.1)).indexOf u)
      ((l.map (fun p => p.1)).indexOf v) with h | h | h
  · exact h
  · exfalso
    have huv : u = v := (List.indexOf_inj hu hv).mp h
    rw [huv] at hlt
    exact lt_irrefl _ hlt
  · exfalso
    have hp := List.pairwise_iff_getElem.mp hs
      ((l.map (fun p => p.1)).indexOf v) ((l.map (fun p => p.1)).indexOf u)
      hjl hil h
    rw [hform1, hform2] at hp
    simp at hp
    omega

/-- Taking first components of a (key, value) tabulation gives back the
keys. -/
theorem map_fst_pairs (f : String → Nat) :
    ∀ l : List String, (l.map (fun k => (k, f k))).map (fun p => p.1) = l
  | [] => rfl
  | a :: t => by simp only [List.map_cons, map_fst_pairs f t]

/-- Every element of a (key, value) tabulation is determined by its first
component. -/
theorem mem_pairs_form (f : String → Nat) (l : List String) :
    ∀ p ∈ l.map (fun k => (k, f k)), p = (p.1, f p.1) := by
  intro p hp
  obtain ⟨k, _, he⟩ := List.mem_map.mp hp
  subst he
  rfl

/-- Edges of `c2AcyGraph` strictly increase `c2Rank`. -/
theorem c2AcyGraph_edge_rank {u v : String} (h : EdgeG c2AcyGraph u v) :
    c2Rank u < c2Rank v := by
  obtain ⟨cs, hcs, hvc, hkv⟩ := h
  simp only [c2AcyGraph, lookupA] at hcs
  split_ifs at hcs with h1 h2
  · injection hcs with hcs
    subst hcs
    simp only [List.mem_cons, List.not_mem_nil, or_false] at hvc
    rcases hvc with hb | hz
    · subst hb
      subst h1
      decide
    · subst hz
      exact absurd hkv (by decide)
  · injection hcs with hcs
    subst hcs
    simp at hvc

/-- The acyclic witness graph is indeed acyclic. -/
theorem c2AcyGraph_acyclic : AcyclicG c2AcyGraph := by
  intro w hw
  have key : ∀ a b, Relation.TransGen (EdgeG c2AcyGraph) a b →
      c2Rank a < c2Rank b := by
    intro a b h
    induction h with
    | single h1 => exact c2AcyGraph_edge_rank h1
    | tail h1 h2 ihh => exact lt_trans ihh (c2AcyGraph_edge_rank h2)
  exact lt_irrefl _ (key w w hw)

/-- The cyclic witness graph is indeed cyclic. -/
theorem c2CycGraph_cyclic : ¬ AcyclicG c2CycGraph := by
  intro hacy
  have e1 : EdgeG c2CycGraph "p" "q" := ⟨["q"], by decide, by decide, by decide⟩
  have e2 : EdgeG c2CycGraph "q" "p" := ⟨["p"], by decide, by decide, by decide⟩
  exact hacy "p" (Relation.TransGen.head e1 (Relation.TransGen.single e2))

/-- C2: for every dependency-graph dict (with the distinct keys a Python
dict guarantees, each mapping a node name to its dependents): if the graph
restricted to the edges whose targets are themselves keys is acyclic,
`topological` returns a permutation of the keys in which every edge
source appears strictly before its (key) target — edges to names that are
not keys are silently ignored rather than erroring; if that restricted
graph has a cycle, `topological` raises the cycle `ValueError`. -/
theorem c2_topological_sort (g : Graph) (hnd : (gkeys g).Nodup) :
    (AcyclicG g →
      ∃ ord, topological g = Except.ok ord ∧ ord.Perm (gkeys g) ∧
        ∀ u v, EdgeG g u v → ord.indexOf u < ord.indexOf v) ∧
    (¬ AcyclicG g → topological g = Except.error TopoErr.cycle) := by
  have hDfs := dfs_spec g ((gkeys g).length + 1)
  have hbud : whiteCount g initTopoState + 1 ≤ (gkeys g).length + 1 := by
    have := whiteCount_le_keys g initTopoState
    omega
  obtain ⟨L1, L2, L3⟩ := topLoop_spec g ((gkeys g).length + 1) hDfs (gkeys g)
    initTopoState (fun x hx => hx) (topoInv_init g)
    (fun u => by simp [initTopoState]) hbud
  rcases hrun : topLoop g ((gkeys g).length + 1) (gkeys g) initTopoState
    with e | sf
  · cases e
    · obtain ⟨w, hw⟩ := L2 hrun
      have hnacy : ¬ AcyclicG g := fun hacy => hacy w hw
      constructor
      · intro hacy
        exact absurd hacy hnacy
      · intro _
        unfold topological
        rw [hrun]
    · exact absurd hrun L1
  · obtain ⟨M1, M2, M3, M4⟩ := L3 sf hrun
    have hstep : ∀ a b, EdgeG g a b →
        (sf.finishT b).getD 0 < (sf.finishT a).getD 0 := by
      intro a b hab
      have hak : a ∈ gkeys g := by
        obtain ⟨cs2, hcs2, _, _⟩ := hab
        refine (mem_gkeys_iff_isKey g a).mp ?_
        unfold isKey
        rw [hcs2]
        rfl
      obtain ⟨fa, hfa, _, hcl⟩ := M1.2.1 a (M4 a hak)
      obtain ⟨_, fb, hfb, hlt⟩ := hcl b hab
      rw [hfa, hfb]
      simpa using hlt
    have hacy2 : AcyclicG g := by
      intro w hw
      have hdec : ∀ a b, Relation.TransGen (EdgeG g) a b →
          (sf.finishT b).getD 0 < (sf.finishT a).getD 0 := by
        intro a b h
        induction h with
        | single h1 => exact hstep _ _ h1
        | tail h1 h2 ihh => exact lt_trans (hstep _ _ h2) ihh
      exact lt_irrefl _ (hdec w w hw)
    have hperm : (((gkeys g).map (fun k => (k, (sf.finishT k).getD 0))).insertionSort
          (fun a b => b.2 ≤ a.2)).Perm
        ((gkeys g).map (fun k => (k, (sf.finishT k).getD 0))) :=
      List.perm_insertionSort _ _
    have hordperm : ((((gkeys g).map (fun k => (k, (sf.finishT k).getD 0))).insertionSort
          (fun a b => b.2 ≤ a.2)).map (fun p => p.1)).Perm (gkeys g) := by
      have h0 := hperm.map (fun p : String × Nat => p.1)
      rwa [map_fst_pairs] at h0
    constructor
    · intro _
      refine ⟨(((gkeys g).map (fun k => (k, (sf.finishT k).getD 0))).insertionSort
          (fun a b => b.2 ≤ a.2)).map (fun p => p.1), ?_, hordperm, ?_⟩
      · unfold topological
        rw [hrun]
      · intro u v huv
        haveI : IsTotal (String × Nat) (fun a b : String × Nat => b.2 ≤ a.2) :=
          ⟨fun a b => le_total b.2 a.2⟩
        haveI : IsTrans (String × Nat) (fun a b : String × Nat => b.2 ≤ a.2) :=
          ⟨fun a b c hab hbc => le_trans hbc hab⟩
        have hsorted : (((gkeys g).map (fun k => (k, (sf.finishT k).getD 0))).insertionSort
            (fun a b => b.2 ≤ a.2)).Pairwise (fun a b : String × Nat => b.2 ≤ a.2) :=
          List.sorted_insertionSort _ _
        have hform : ∀ p ∈ (((gkeys g).map (fun k => (k, (sf.finishT k).getD 0))).insertionSort
            (fun a b => b.2 ≤ a.2)), p = (p.1, (sf.finishT p.1).getD 0) :=
          fun p hp => mem_pairs_form _ _ p (hperm.mem_iff.mp hp)
        have hukey : u ∈ gkeys g := by
          obtain ⟨cs2, hcs2, _, _⟩ := huv
          refine (mem_gkeys_iff_isKey g u).mp ?_
          unfold isKey
          rw [hcs2]
          rfl
        have hvkey : v ∈ gkeys g := by
          obtain ⟨_, _, _, hkv⟩ := huv
          exact (mem_gkeys_iff_isKey g v).mp hkv
        exact @sorted_fin_index_lt (fun k => (sf.finishT k).getD 0) _
          hform hsorted u v
          (hordperm.mem_iff.mpr hukey) (hordperm.mem_iff.mpr hvkey)
          (hstep u v huv)
    · intro hnacy
      exact absurd hacy2 hnacy

/-- Witness for C2 at concrete graphs: the acyclic two-node graph (whose
stray dependency "zz" is silently ignored) is sorted, and the two-node
cycle raises the cycle error. -/
theorem c2_topological_sort_witness :
    (∃ ord, topological c2AcyGraph = Except.ok ord ∧
        ord.Perm (gkeys c2AcyGraph) ∧
        ∀ u v, EdgeG c2AcyGraph u v → ord.indexOf u < ord.indexOf v) ∧
    topological c2CycGraph = Except.error TopoErr.cycle := by
  constructor
  · exact (c2_topological_sort c2AcyGraph (by decide)).1 c2AcyGraph_acyclic
  · exact (c2_topological_sort c2CycGraph (by decide)).2 c2CycGraph_cyclic

end CellLink
